import Mathlib

/-!
Verification of the temporal-sequence engine of `src/src/tsequence.c`
(MobilityDB).  The C code is shallowly embedded over exact arithmetic:

* base values of the scalar kind (`FLOAT8`) become `ℚ`;
* `TimestampTz` (a 64-bit count of microseconds) becomes `ℤ`;
* C `double` computation is modelled by exact rational arithmetic, and the
  C cast `(long)` of a nonnegative double by truncation toward zero;
* a C function that can raise an error (`ereport`) returns `Option`/lists,
  `none` standing for the raised error;
* the 2D/3D geometric point kinds become records of rational coordinates.

Each definition mirrors the correspondingly named C function; definitions
whose C source lives outside `src/` (collaborator modules such as `period.c`,
`temporal_util.c`) are modelled from the specification and say so in their
doc comment.
-/

/-- A temporal instant of the scalar (`FLOAT8`) base kind: a base value
together with a microsecond timestamp (`TInstant` with `valuetypid =
FLOAT8OID`). -/
structure TInstant where
  value : ℚ
  t : ℤ
deriving DecidableEq, Repr, Inhabited

/-- Modelled from the spec: the global float-comparison tolerance `EPSILON`
(a named constant defined in the external `temporal.h`, value `1.0E-05`),
"an explicit named constant threaded through Segment Math" (§9). -/
def EPSILON : ℚ := 1 / 100000

/-- The C cast `(long) x` of a `double`: truncation toward zero. -/
def ctrunc (q : ℚ) : ℤ := if 0 ≤ q then ⌊q⌋ else -⌊-q⌋

/-!  ### Segment math: value / segment intersection (tsequence.c:39-472)  -/

/-- The interpolation fraction computed by `tnumberseq_intersection_value`
(src/src/tsequence.c:74-76): `partial / range`, oriented with the segment
direction. -/
def numValueFraction (dvalue1 dvalue2 dvalue : ℚ) : ℚ :=
  let mn := min dvalue1 dvalue2
  let mx := max dvalue1 dvalue2
  let range := mx - mn
  let prt := dvalue - mn
  if dvalue1 < dvalue2 then prt / range else 1 - prt / range

/-- Embeds `tnumberseq_intersection_value` (src/src/tsequence.c:60-86):
intersection of a linear scalar segment with a base value.  Returns the
intersection timestamp when the value falls inside the segment's value range
and the fraction survives the `EPSILON` rejection test. -/
def tnumberseq_intersection_value (inst1 inst2 : TInstant) (value : ℚ) :
    Option ℤ :=
  let dvalue1 := inst1.value
  let dvalue2 := inst2.value
  let mn := min dvalue1 dvalue2
  let mx := max dvalue1 dvalue2
  if value < mn ∨ mx < value then none
  else
    let fraction := numValueFraction dvalue1 dvalue2 value
    if |fraction| < EPSILON ∨ |fraction - 1| < EPSILON then none
    else
      let duration : ℚ := ((inst2.t - inst1.t : ℤ) : ℚ)
      some (inst1.t + ctrunc (duration * fraction))

/-- The crossing fraction solved by `tnumberseq_intersection`
(src/src/tsequence.c:205-210): `(x3 - x1) / (x2 - x1 - x4 + x3)`. -/
def numSegFraction (x1 x2 x3 x4 : ℚ) : ℚ :=
  (x3 - x1) / (x2 - x1 - x4 + x3)

/-- Embeds `tnumberseq_intersection` (src/src/tsequence.c:193-218):
crossing of two synchronized linear scalar segments.  `none` models the
`return false` cases (parallel segments, fraction outside
`(EPSILON, 1 - EPSILON)`). -/
def tnumberseq_intersection (start1 end1 start2 end2 : TInstant) :
    Option ℤ :=
  let x1 := start1.value
  let x2 := end1.value
  let x3 := start2.value
  let x4 := end2.value
  let denum := x2 - x1 - x4 + x3
  if denum = 0 then none
  else
    let fraction := numSegFraction x1 x2 x3 x4
    if fraction ≤ EPSILON ∨ 1 - EPSILON ≤ fraction then none
    else
      let duration : ℚ := ((end1.t - start1.t : ℤ) : ℚ)
      some (start1.t + ctrunc (duration * fraction))

/-!  ### Segment math: collinearity (tsequence.c:474-643)  -/

/-- Embeds `float_collinear` (src/src/tsequence.c:487-492): the middle value
equals the interpolation of the outer two at `ratio`, within `EPSILON`. -/
def float_collinear (x1 x2 x3 ratio : ℚ) : Bool :=
  let x := x1 + (x3 - x1) * ratio
  |x2 - x| ≤ EPSILON

/-- Embeds `datum_collinear` (src/src/tsequence.c:611-643) for the scalar
base kind: `ratio = (t2 - t1) / (t3 - t1)` then `float_collinear`. -/
def datum_collinear (value1 value2 value3 : ℚ) (t1 t2 t3 : ℤ) : Bool :=
  let duration1 : ℚ := ((t2 - t1 : ℤ) : ℚ)
  let duration2 : ℚ := ((t3 - t1 : ℤ) : ℚ)
  float_collinear value1 value2 value3 (duration1 / duration2)

/-!  ### Normalization of an instant run (tsequence.c:661-708)  -/

/-- The redundancy test of the normalization loop
(src/src/tsequence.c:679-694): the candidate middle instant `inst2` of the
triple `(inst1, inst2, inst3)` is dropped when step interpolation repeats the
value, a linear triple is constant, or a linear triple is collinear. -/
def removeRedundant (linear : Bool) (inst1 inst2 inst3 : TInstant) : Bool :=
  (!linear && inst1.value == inst2.value) ||
  (linear && inst1.value == inst2.value && inst2.value == inst3.value) ||
  (linear && datum_collinear inst1.value inst2.value inst3.value
    inst1.t inst2.t inst3.t)

/-- The `for` loop of `tinstantarr_normalize` (src/src/tsequence.c:675-705):
`inst1` is the last kept instant, `inst2` the current candidate; the final
candidate is always kept. -/
def normLoop (linear : Bool) (inst1 inst2 : TInstant) :
    List TInstant → List TInstant
  | [] => [inst2]
  | inst3 :: rest =>
    if removeRedundant linear inst1 inst2 inst3 then
      normLoop linear inst1 inst3 rest
    else
      inst2 :: normLoop linear inst2 inst3 rest

/-- Embeds `tinstantarr_normalize` (src/src/tsequence.c:661-708).  The C
function asserts `count > 1`; runs of length `≤ 1` are returned unchanged
here (the assertion is a caller precondition). -/
def tinstantarr_normalize (linear : Bool) : List TInstant → List TInstant
  | inst1 :: inst2 :: rest => inst1 :: normLoop linear inst1 inst2 rest
  | l => l

example :
    tinstantarr_normalize false [⟨1, 0⟩, ⟨1, 4⟩, ⟨2, 9⟩] = [⟨1, 0⟩, ⟨2, 9⟩] :=
  by decide

/-!  ### The sequence value and its constructor (tsequence.c:858-990)  -/

/-- A temporal sequence value over the scalar base kind: the ordered instant
run, the two bound-inclusivity flags of its period, and the interpolation
flag (`MOBDB_FLAGS_GET_LINEAR`).  The period of a sequence is derived from
the run (`period_set(&result->period, norminsts[0]->t, ...)` in
`tsequence_make`), so it is not stored separately here. -/
structure TSequence where
  insts : List TInstant
  lower_inc : Bool
  upper_inc : Bool
  linear : Bool
deriving DecidableEq, Repr, Inhabited

/-- Timestamp of the first instant — the lower bound of the period. -/
def TSequence.lowerT (s : TSequence) : ℤ := (s.insts.headD default).t

/-- Timestamp of the last instant — the upper bound of the period. -/
def TSequence.upperT (s : TSequence) : ℤ := (s.insts.getLastD default).t

/-- Modelled from the spec: `ensure_valid_tinstantarr` lives in the external
`temporal_util` module; per the spec it validates that the timestamps are
strictly increasing ("timestamps strictly increasing", a `ValidationError`
otherwise).  The geometry dimension/frame checks do not apply to the scalar
base kind modelled here. -/
def validTimestamps : List TInstant → Bool
  | [] => true
  | [_] => true
  | inst1 :: inst2 :: rest =>
    decide (inst1.t < inst2.t) && validTimestamps (inst2 :: rest)

/-- Embeds `tsequence_make` (src/src/tsequence.c:884-990) for the scalar
base kind: validation (strictly increasing timestamps; a single instant
needs inclusive bounds; step interpolation with an exclusive upper bound
needs a constant final pair), then optional normalization.  `none` models a
raised `ValidationError`; the empty array, which trips the C `assert`, is
also mapped to `none` (the assertion is a caller precondition). -/
def tsequence_make (instants : List TInstant)
    (lower_inc upper_inc linear norm : Bool) : Option TSequence :=
  if instants.isEmpty then none
  else if ¬ validTimestamps instants then none
  else if instants.length = 1 ∧ ¬(lower_inc ∧ upper_inc) then none
  else if ¬linear ∧ 1 < instants.length ∧ ¬upper_inc ∧
      (instants.getD (instants.length - 1) default).value ≠
        (instants.getD (instants.length - 2) default).value then none
  else
    let norminsts :=
      if norm ∧ 1 < instants.length then tinstantarr_normalize linear instants
      else instants
    some ⟨norminsts, lower_inc, upper_inc, linear⟩

/-- A well-formed sequence: exactly the values `tsequence_make` reconstructs
unchanged (without renormalizing), i.e. those satisfying the §3 construction
invariants. -/
def TSequence.Valid (s : TSequence) : Prop :=
  tsequence_make s.insts s.lower_inc s.upper_inc s.linear false = some s

lemma validTimestamps_iff_chain (l : List TInstant) :
    validTimestamps l = true ↔ l.Chain' (fun a b => a.t < b.t) := by
  induction l with
  | nil => simp [validTimestamps]
  | cons a l ih =>
    cases l with
    | nil => simp [validTimestamps]
    | cons b l =>
      simp only [validTimestamps, Bool.and_eq_true, decide_eq_true_eq,
        List.chain'_cons] at ih ⊢
      exact and_congr Iff.rfl ih

/-!  ### Claim C1: construction validation  -/

/-- C1: for every (nonempty — the C code asserts `count > 0`) instant array,
`tsequence_make` fails with a `ValidationError` exactly when the timestamps
are not strictly increasing, a single instant comes with a non-inclusive
lower or upper bound, or step interpolation with an exclusive upper bound has
different values at the final two instants; every other input constructs a
sequence. -/
theorem C1_tsequence_make_validation (instants : List TInstant)
    (lower_inc upper_inc linear norm : Bool) (h : instants ≠ []) :
    tsequence_make instants lower_inc upper_inc linear norm = none ↔
      (¬ instants.Chain' (fun a b => a.t < b.t) ∨
       (instants.length = 1 ∧ ¬(lower_inc = true ∧ upper_inc = true)) ∨
       (linear = false ∧ 1 < instants.length ∧ upper_inc = false ∧
         (instants.getD (instants.length - 1) default).value ≠
           (instants.getD (instants.length - 2) default).value)) := by
  have h0 : ¬(instants.isEmpty = true) := by simpa using h
  rw [tsequence_make, if_neg h0]
  split_ifs with h1 h2 h3 <;>
    simp_all [validTimestamps_iff_chain, not_and_or]

/-- Witness for C1 at a concrete input: the singleton array with closed
bounds is accepted. -/
theorem C1_tsequence_make_validation_witness :
    ([⟨1, 0⟩] : List TInstant) ≠ [] ∧
      (tsequence_make [⟨1, 0⟩] true true true false = none ↔
        (¬ ([⟨1, 0⟩] : List TInstant).Chain' (fun a b => a.t < b.t) ∨
         (([⟨1, 0⟩] : List TInstant).length = 1 ∧ ¬(true = true ∧ true = true)) ∨
         (true = false ∧ 1 < ([⟨1, 0⟩] : List TInstant).length ∧ true = false ∧
           (([⟨1, 0⟩] : List TInstant).getD 0 default).value ≠
             (([⟨1, 0⟩] : List TInstant).getD 0 default).value))) :=
  ⟨by decide,
   C1_tsequence_make_validation [⟨1, 0⟩] true true true false (by decide)⟩

/-!  ### Claim C2: the triple-redundancy condition  -/

/-- Follows the spec's words (§4.3): a consecutive triple
`(v1@t1, v2@t2, v3@t3)` is redundant and `v2` is dropped when Step mode and
`v1 = v2`, or `v1 = v2 = v3` in any mode, or Linear mode and the three
values are collinear at `ratio = (t2 - t1) / (t3 - t1)`. -/
def specRedundantTriple (linear : Bool) (v1 v2 v3 : ℚ) (t1 t2 t3 : ℤ) :
    Prop :=
  (linear = false ∧ v1 = v2) ∨ (v1 = v2 ∧ v2 = v3) ∨
  (linear = true ∧
    float_collinear v1 v2 v3 (((t2 - t1 : ℤ) : ℚ) / ((t3 - t1 : ℤ) : ℚ)) =
      true)

/-- C2: the normalization pass drops the middle instant of a consecutive
triple exactly under the spec's redundancy condition, and
`(1@t1, 1@t2, 2@t3)` with Step interpolation normalizes to `(1@t1, 2@t3)`. -/
theorem C2_normalize_drop_condition :
    (∀ (linear : Bool) (inst1 inst2 inst3 : TInstant),
      removeRedundant linear inst1 inst2 inst3 = true ↔
        specRedundantTriple linear inst1.value inst2.value inst3.value
          inst1.t inst2.t inst3.t) ∧
    (∀ t1 t2 t3 : ℤ,
      tinstantarr_normalize false [⟨1, t1⟩, ⟨1, t2⟩, ⟨2, t3⟩] =
        [⟨1, t1⟩, ⟨2, t3⟩]) := by
  constructor
  · intro linear inst1 inst2 inst3
    cases linear <;>
      simp [removeRedundant, specRedundantTriple, datum_collinear] <;>
      tauto
  · intro t1 t2 t3
    simp [tinstantarr_normalize, normLoop, removeRedundant]

/-!  ### Claim C9: idempotence of normalization  -/

/-- No two adjacent instants share a value, except possibly the final pair
(the step normalization loop always keeps the final candidate). -/
def stepNoAdjDup : List TInstant → Prop
  | x :: y :: z :: r => x.value ≠ y.value ∧ stepNoAdjDup (y :: z :: r)
  | _ => True

lemma normLoop_ne_nil (linear : Bool) (inst1 inst2 : TInstant)
    (rest : List TInstant) : normLoop linear inst1 inst2 rest ≠ [] := by
  induction rest generalizing inst1 inst2 with
  | nil => simp [normLoop]
  | cons inst3 rest ih =>
    rw [normLoop]
    split_ifs
    · exact ih inst1 inst3
    · simp

lemma removeRedundant_step (inst1 inst2 inst3 : TInstant) :
    removeRedundant false inst1 inst2 inst3 = true ↔
      inst1.value = inst2.value := by
  simp [removeRedundant]

lemma stepNoAdjDup_normLoop (inst1 inst2 : TInstant) (rest : List TInstant) :
    stepNoAdjDup (inst1 :: normLoop false inst1 inst2 rest) := by
  induction rest generalizing inst1 inst2 with
  | nil => simp [normLoop, stepNoAdjDup]
  | cons inst3 rest ih =>
    rw [normLoop]
    split_ifs with hred
    · exact ih inst1 inst3
    · have hne : inst1.value ≠ inst2.value := by
        simpa [removeRedundant_step] using hred
      have htail := ih inst2 inst3
      obtain ⟨j, L, hL⟩ :
          ∃ j L, normLoop false inst2 inst3 rest = j :: L := by
        cases hcase : normLoop false inst2 inst3 rest with
        | nil => exact absurd hcase (normLoop_ne_nil _ _ _ _)
        | cons j L => exact ⟨j, L, rfl⟩
      rw [hL]
      rw [hL] at htail
      exact ⟨hne, htail⟩

lemma normLoop_of_stepNoAdjDup (inst1 inst2 : TInstant)
    (rest : List TInstant) (h : stepNoAdjDup (inst1 :: inst2 :: rest)) :
    normLoop false inst1 inst2 rest = inst2 :: rest := by
  induction rest generalizing inst1 inst2 with
  | nil => simp [normLoop]
  | cons inst3 rest ih =>
    obtain ⟨hne, htail⟩ : inst1.value ≠ inst2.value ∧
        stepNoAdjDup (inst2 :: inst3 :: rest) := h
    rw [normLoop, if_neg (by simpa [removeRedundant_step] using hne)]
    rw [ih inst2 inst3 htail]

/-- C9 (amended): for Step interpolation the single left-to-right
normalization pass is idempotent. -/
theorem C9_normalize_idempotent_step (l : List TInstant) :
    tinstantarr_normalize false (tinstantarr_normalize false l) =
      tinstantarr_normalize false l := by
  match l with
  | [] => rfl
  | [x] => rfl
  | inst1 :: inst2 :: rest =>
    rw [tinstantarr_normalize]
    obtain ⟨j, L, hL⟩ :
        ∃ j L, normLoop false inst1 inst2 rest = j :: L := by
      cases hcase : normLoop false inst1 inst2 rest with
      | nil => exact absurd hcase (normLoop_ne_nil _ _ _ _)
      | cons j L => exact ⟨j, L, rfl⟩
    rw [hL, tinstantarr_normalize]
    have hdup := stepNoAdjDup_normLoop inst1 inst2 rest
    rw [hL] at hdup
    rw [normLoop_of_stepNoAdjDup inst1 j L hdup]

/-- C9 (counterexample): with Linear interpolation the `EPSILON`-tolerant
collinearity test makes the single pass non-idempotent: in this run the pass
drops the third instant, after which the surviving triple is itself
collinear within `EPSILON`, so a second pass drops another instant. -/
theorem C9_normalize_not_idempotent_linear :
    tinstantarr_normalize true
        (tinstantarr_normalize true
          [⟨0, 0⟩, ⟨1 + 9 / 1000000, 1⟩, ⟨2 - 45 / 10000000, 2⟩, ⟨3, 3⟩]) ≠
      tinstantarr_normalize true
        [⟨0, 0⟩, ⟨1 + 9 / 1000000, 1⟩, ⟨2 - 45 / 10000000, 2⟩, ⟨3, 3⟩] := by
  norm_num [tinstantarr_normalize, normLoop, removeRedundant,
    datum_collinear, float_collinear, EPSILON, abs_of_nonneg, abs_of_nonpos,
    abs_of_pos, abs_of_neg]

/-!  ### Claim C6: bounds on reported crossing timestamps  -/

lemma ctrunc_bounds {q : ℚ} {d : ℤ} (h0 : 0 ≤ q) (hd : q < (d : ℚ)) :
    0 ≤ ctrunc q ∧ ctrunc q < d := by
  rw [ctrunc, if_pos h0]
  exact ⟨Int.floor_nonneg.mpr h0, Int.floor_lt.mpr hd⟩

/-- C6 (counterexample): on the one-microsecond segment `0@0 → 100000@1` the
value `1` is accepted with interpolation fraction exactly `EPSILON` (not in
the open interval), and the reported timestamp, truncated to microseconds,
equals the segment's start — not strictly inside it. -/
theorem C6_counterexample :
    tnumberseq_intersection_value ⟨0, 0⟩ ⟨100000, 1⟩ 1 = some 0 ∧
      numValueFraction 0 100000 1 = EPSILON := by
  constructor
  · norm_num [tnumberseq_intersection_value, numValueFraction, EPSILON,
      ctrunc, abs_of_nonneg, abs_of_nonpos, Int.floor_eq_zero_iff,
      Set.mem_Ico]
  · norm_num [numValueFraction, EPSILON]

/-- C6 (amended): a timestamp reported by `tnumberseq_intersection_value`
satisfies `inst1.t ≤ t < inst2.t` (the left equality is possible because the
fraction is truncated to whole microseconds) with interpolation fraction in
the closed interval `[EPSILON, 1 - EPSILON]`; a timestamp reported by
`tnumberseq_intersection` satisfies `start1.t ≤ t < end1.t` with fraction in
the open interval `(EPSILON, 1 - EPSILON)`. -/
theorem C6_crossing_bounds (inst1 inst2 start1 end1 start2 end2 : TInstant)
    (v : ℚ) (t t' : ℤ) (h1 : inst1.t < inst2.t) (h2 : start1.t < end1.t) :
    (tnumberseq_intersection_value inst1 inst2 v = some t →
      inst1.t ≤ t ∧ t < inst2.t ∧
      EPSILON ≤ numValueFraction inst1.value inst2.value v ∧
      numValueFraction inst1.value inst2.value v ≤ 1 - EPSILON) ∧
    (tnumberseq_intersection start1 end1 start2 end2 = some t' →
      start1.t ≤ t' ∧ t' < end1.t ∧
      EPSILON <
        numSegFraction start1.value end1.value start2.value end2.value ∧
      numSegFraction start1.value end1.value start2.value end2.value <
        1 - EPSILON) := by
  constructor
  · intro h
    simp only [tnumberseq_intersection_value] at h
    split_ifs at h with hrange hguard
    push_neg at hrange hguard
    obtain ⟨hmn, hmx⟩ := hrange
    obtain ⟨habs0, habs1⟩ := hguard
    set f := numValueFraction inst1.value inst2.value v with hf
    have hmem : 0 ≤ f ∧ f ≤ 1 := by
      rcases eq_or_ne inst1.value inst2.value with heq | hne
      · exfalso
        have hv : v = inst1.value := le_antisymm (by simpa [heq] using hmx)
          (by simpa [heq] using hmn)
        have : f = 1 := by
          simp [hf, numValueFraction, heq, hv]
        rw [this] at habs1
        norm_num [EPSILON] at habs1
      · rcases lt_or_gt_of_ne hne with hlt | hgt
        · have hr : (0 : ℚ) < inst2.value - inst1.value := by linarith
          have hmn' : inst1.value ≤ v := by
            simpa [min_eq_left hlt.le] using hmn
          have hmx' : v ≤ inst2.value := by
            simpa [max_eq_right hlt.le] using hmx
          rw [hf, numValueFraction, if_pos hlt]
          simp only [min_eq_left hlt.le, max_eq_right hlt.le]
          constructor
          · exact div_nonneg (by linarith) hr.le
          · rw [div_le_one hr]; linarith
        · have hr : (0 : ℚ) < inst1.value - inst2.value := by linarith
          have hmn' : inst2.value ≤ v := by
            simpa [min_eq_right hgt.le] using hmn
          have hmx' : v ≤ inst1.value := by
            simpa [max_eq_left hgt.le] using hmx
          rw [hf, numValueFraction, if_neg (not_lt.mpr hgt.le)]
          simp only [min_eq_right hgt.le, max_eq_left hgt.le]
          have h01 : 0 ≤ (v - inst2.value) / (inst1.value - inst2.value) ∧
              (v - inst2.value) / (inst1.value - inst2.value) ≤ 1 := by
            constructor
            · exact div_nonneg (by linarith) hr.le
            · rw [div_le_one hr]; linarith
          constructor <;> linarith [h01.1, h01.2]
    have hfe : EPSILON ≤ f := by
      have := abs_of_nonneg hmem.1 ▸ habs0
      linarith [this]
    have hfe1 : f ≤ 1 - EPSILON := by
      have h1f : |f - 1| = 1 - f := by
        rw [abs_of_nonpos (by linarith [hmem.2])]; ring
      rw [h1f] at habs1
      linarith
    have heps : (0 : ℚ) < EPSILON := by norm_num [EPSILON]
    have hdur : (1 : ℚ) ≤ ((inst2.t - inst1.t : ℤ) : ℚ) := by
      exact_mod_cast (by omega : (1 : ℤ) ≤ inst2.t - inst1.t)
    have hprod : 0 ≤ ((inst2.t - inst1.t : ℤ) : ℚ) * f ∧
        ((inst2.t - inst1.t : ℤ) : ℚ) * f < ((inst2.t - inst1.t : ℤ) : ℚ) := by
      constructor
      · exact mul_nonneg (by linarith) hmem.1
      · nlinarith
    obtain ⟨hc0, hc1⟩ := ctrunc_bounds hprod.1 hprod.2
    simp only [Option.some_inj] at h
    subst h
    refine ⟨by omega, by omega, hfe, hfe1⟩
  · intro h
    simp only [tnumberseq_intersection] at h
    split_ifs at h with hden hguard
    push_neg at hguard
    obtain ⟨hlow, hhigh⟩ := hguard
    set f := numSegFraction start1.value end1.value start2.value end2.value
      with hf
    have heps : (0 : ℚ) < EPSILON := by norm_num [EPSILON]
    have hfe : EPSILON < f := hlow
    have hfe1 : f < 1 - EPSILON := hhigh
    have hdur : (1 : ℚ) ≤ ((end1.t - start1.t : ℤ) : ℚ) := by
      exact_mod_cast (by omega : (1 : ℤ) ≤ end1.t - start1.t)
    have hprod : 0 ≤ ((end1.t - start1.t : ℤ) : ℚ) * f ∧
        ((end1.t - start1.t : ℤ) : ℚ) * f < ((end1.t - start1.t : ℤ) : ℚ) := by
      constructor
      · exact mul_nonneg (by linarith) (by linarith)
      · nlinarith
    obtain ⟨hc0, hc1⟩ := ctrunc_bounds hprod.1 hprod.2
    simp only [Option.some_inj] at h
    subst h
    exact ⟨by omega, by omega, hfe, hfe1⟩

/-- Witness for C6 at concrete instants. -/
theorem C6_crossing_bounds_witness :
    ((0 : ℤ) < 10 ∧ (0 : ℤ) < 10) ∧
      ((tnumberseq_intersection_value ⟨0, 0⟩ ⟨1, 10⟩ (1 / 2) = some 5 →
        (0 : ℤ) ≤ 5 ∧ (5 : ℤ) < 10 ∧
        EPSILON ≤ numValueFraction 0 1 (1 / 2) ∧
        numValueFraction 0 1 (1 / 2) ≤ 1 - EPSILON) ∧
      (tnumberseq_intersection ⟨0, 0⟩ ⟨1, 10⟩ ⟨1, 0⟩ ⟨0, 10⟩ = some 5 →
        (0 : ℤ) ≤ 5 ∧ (5 : ℤ) < 10 ∧
        EPSILON < numSegFraction 0 1 1 0 ∧
        numSegFraction 0 1 1 0 < 1 - EPSILON)) :=
  ⟨⟨by decide, by decide⟩,
   C6_crossing_bounds ⟨0, 0⟩ ⟨1, 10⟩ ⟨0, 0⟩ ⟨1, 10⟩ ⟨1, 0⟩ ⟨0, 10⟩ (1 / 2) 5 5
     (by decide) (by decide)⟩

/-!  ### Point segment intersection (tsequence.c:230-419)  -/

/-- A 2D geometric point (`POINT2D`), coordinates as exact rationals. -/
structure Point2 where
  x : ℚ
  y : ℚ
deriving DecidableEq, Repr, Inhabited

/-- A 3D point (`POINT3DZ` / the cartesian `POINT3D` of the geodesic case). -/
structure Point3 where
  x : ℚ
  y : ℚ
  z : ℚ
deriving DecidableEq, Repr, Inhabited

/-- Per-dimension denominator of the crossing system
(src/src/tsequence.c:242-244, 295-296, 365-367): `u2 - u1 - u4 + u3`. -/
def dimDenum (u1 u2 u3 u4 : ℚ) : ℚ := u2 - u1 - u4 + u3

/-- Per-dimension crossing fraction `(u3 - u1) / denum`; `0` when the
dimension is degenerate, mirroring the C initialization `xfraction = 0`. -/
def dimFraction (u1 u2 u3 u4 : ℚ) : ℚ :=
  if dimDenum u1 u2 u3 u4 = 0 then 0 else (u3 - u1) / dimDenum u1 u2 u3 u4

/-- Embeds the 3D branch of `tgeompointseq_intersection`
(src/src/tsequence.c:235-288, then 320-322): per-dimension solve, range
rejection, the disagreeing-timestamps rejection, and selection of the first
non-degenerate dimension's fraction.  The instants' point payloads and
timestamps are passed directly (`p1 = start1, p2 = end1, p3 = start2,
p4 = end2`, `t1 = start1->t`, `t2 = end1->t`). -/
def tgeompointseq_intersection3D (p1 p2 p3 p4 : Point3) (t1 t2 : ℤ) :
    Option ℤ :=
  let xdenum := dimDenum p1.x p2.x p3.x p4.x
  let ydenum := dimDenum p1.y p2.y p3.y p4.y
  let zdenum := dimDenum p1.z p2.z p3.z p4.z
  let xfraction := dimFraction p1.x p2.x p3.x p4.x
  let yfraction := dimFraction p1.y p2.y p3.y p4.y
  let zfraction := dimFraction p1.z p2.z p3.z p4.z
  if xdenum = 0 ∧ ydenum = 0 ∧ zdenum = 0 then none
  else if xdenum ≠ 0 ∧ (xfraction ≤ EPSILON ∨ 1 - EPSILON ≤ xfraction) then
    none
  else if ydenum ≠ 0 ∧ (yfraction ≤ EPSILON ∨ 1 - EPSILON ≤ yfraction) then
    none
  else if zdenum ≠ 0 ∧ (zfraction ≤ EPSILON ∨ 1 - EPSILON ≤ zfraction) then
    none
  else if (xdenum ≠ 0 ∧ ydenum ≠ 0 ∧ zdenum ≠ 0 ∧
        EPSILON < |xfraction - yfraction| ∧
        EPSILON < |xfraction - zfraction|) ∨
      (xdenum = 0 ∧ ydenum ≠ 0 ∧ zdenum ≠ 0 ∧
        EPSILON < |yfraction - zfraction|) ∨
      (xdenum ≠ 0 ∧ ydenum = 0 ∧ zdenum ≠ 0 ∧
        EPSILON < |xfraction - zfraction|) ∨
      (xdenum ≠ 0 ∧ ydenum ≠ 0 ∧ zdenum = 0 ∧
        EPSILON < |xfraction - yfraction|) then none
  else
    let fraction :=
      if xdenum ≠ 0 then xfraction
      else if ydenum ≠ 0 then yfraction
      else zfraction
    some (t1 + ctrunc (((t2 - t1 : ℤ) : ℚ) * fraction))

/-- Embeds the 2D branch of `tgeompointseq_intersection`
(src/src/tsequence.c:289-322). -/
def tgeompointseq_intersection2D (p1 p2 p3 p4 : Point2) (t1 t2 : ℤ) :
    Option ℤ :=
  let xdenum := dimDenum p1.x p2.x p3.x p4.x
  let ydenum := dimDenum p1.y p2.y p3.y p4.y
  let xfraction := dimFraction p1.x p2.x p3.x p4.x
  let yfraction := dimFraction p1.y p2.y p3.y p4.y
  if xdenum = 0 ∧ ydenum = 0 then none
  else if xdenum ≠ 0 ∧ (xfraction ≤ EPSILON ∨ 1 - EPSILON ≤ xfraction) then
    none
  else if ydenum ≠ 0 ∧ (yfraction ≤ EPSILON ∨ 1 - EPSILON ≤ yfraction) then
    none
  else if xdenum ≠ 0 ∧ ydenum ≠ 0 ∧ EPSILON < |xfraction - yfraction| then
    none
  else
    let fraction := if xdenum ≠ 0 then xfraction else yfraction
    some (t1 + ctrunc (((t2 - t1 : ℤ) : ℚ) * fraction))

/-- Embeds `tgeogpointseq_intersection` (src/src/tsequence.c:335-419) after
its external conversions: `geographic_point_init`/`geog2cart` (external
spatial primitives) map the endpoints to cartesian unit-sphere points, which
are taken here as the inputs `A1 A2 B1 B2`, and `interacts` stands for the
external `edge_intersects` pre-test (`PIR_NO_INTERACT` means `false`).  The
fraction logic that follows the conversions is embedded verbatim, including
the averaging of agreeing dimension fractions. -/
def tgeogpointseq_intersection_cart (interacts : Bool) (A1 A2 B1 B2 : Point3)
    (t1 t2 : ℤ) : Option ℤ :=
  if !interacts then none
  else
    let xdenum := dimDenum A1.x A2.x B1.x B2.x
    let ydenum := dimDenum A1.y A2.y B1.y B2.y
    let zdenum := dimDenum A1.z A2.z B1.z B2.z
    let xfraction := dimFraction A1.x A2.x B1.x B2.x
    let yfraction := dimFraction A1.y A2.y B1.y B2.y
    let zfraction := dimFraction A1.z A2.z B1.z B2.z
    if xdenum = 0 ∧ ydenum = 0 ∧ zdenum = 0 then none
    else if xdenum ≠ 0 ∧ (xfraction ≤ EPSILON ∨ 1 - EPSILON ≤ xfraction) then
      none
    else if ydenum ≠ 0 ∧ (yfraction ≤ EPSILON ∨ 1 - EPSILON ≤ yfraction) then
      none
    else if zdenum ≠ 0 ∧ (zfraction ≤ EPSILON ∨ 1 - EPSILON ≤ zfraction) then
      none
    else
      let ofraction : Option ℚ :=
        if xdenum ≠ 0 ∧ ydenum ≠ 0 ∧ zdenum ≠ 0 ∧
            |xfraction - yfraction| ≤ EPSILON ∧
            |xfraction - zfraction| ≤ EPSILON then
          some ((xfraction + yfraction + zfraction) / 3)
        else if xdenum = 0 ∧ ydenum ≠ 0 ∧ zdenum ≠ 0 ∧
            |yfraction - zfraction| ≤ EPSILON then
          some ((yfraction + zfraction) / 2)
        else if xdenum ≠ 0 ∧ ydenum = 0 ∧ zdenum ≠ 0 ∧
            |xfraction - zfraction| ≤ EPSILON then
          some ((xfraction + zfraction) / 2)
        else if xdenum ≠ 0 ∧ ydenum ≠ 0 ∧ zdenum = 0 ∧
            |xfraction - yfraction| ≤ EPSILON then
          some ((xfraction + yfraction) / 2)
        else if xdenum ≠ 0 then some xfraction
        else if ydenum ≠ 0 then some yfraction
        else if zdenum ≠ 0 then some zfraction
        else none
      ofraction.map (fun fr => t1 + ctrunc (((t2 - t1 : ℤ) : ℚ) * fr))

/-!  ### Claim C7: dimension agreement and fraction averaging  -/

/-- C7 (counterexample): two synchronized 3D geometric point segments whose
`y` dimension's crossing fraction (`3/10`) differs from the `x` and `z`
fractions (`1/2`) by far more than `EPSILON` are still reported as
intersecting — the code never compares `y` against `z`, and with all three
denominators nonzero it rejects only when `x` disagrees with *both* other
dimensions. The reported fraction is `x`'s own `1/2`, not an average. -/
theorem C7_counterexample :
    tgeompointseq_intersection3D ⟨0, 0, 0⟩ ⟨2, 7, 2⟩ ⟨1, 3, 1⟩ ⟨1, 0, 1⟩
        0 1000000 = some 500000 ∧
      dimDenum 0 2 1 1 ≠ 0 ∧ dimDenum 0 7 3 0 ≠ 0 ∧
      EPSILON < |dimFraction 0 2 1 1 - dimFraction 0 7 3 0| := by
  refine ⟨?_, by norm_num [dimDenum], by norm_num [dimDenum], ?_⟩
  · norm_num [tgeompointseq_intersection3D, dimDenum, dimFraction, EPSILON,
      ctrunc, abs_of_nonneg, abs_of_nonpos, abs_of_pos, abs_of_neg]
  · norm_num [dimFraction, dimDenum, EPSILON, abs_of_nonneg]

/-- C7 (amended): with all three denominators non-degenerate and every
dimension fraction inside `(EPSILON, 1-EPSILON)`, the 3D geometric case
rejects the crossing only when the `x` fraction disagrees with *both* the
`y` and the `z` fraction beyond `EPSILON` (agreement between `y` and `z` is
never required), and on success it reports the `x` fraction itself, not an
average; in the 2D geometric case both non-degenerate dimensions must agree
within `EPSILON`; fractions of agreeing dimensions are averaged only in the
geodesic case. -/
theorem C7_pointseq_intersection_agreement :
    (∀ (p1 p2 p3 p4 : Point3) (t1 t2 : ℤ),
      dimDenum p1.x p2.x p3.x p4.x ≠ 0 →
      dimDenum p1.y p2.y p3.y p4.y ≠ 0 →
      dimDenum p1.z p2.z p3.z p4.z ≠ 0 →
      (EPSILON < dimFraction p1.x p2.x p3.x p4.x ∧
        dimFraction p1.x p2.x p3.x p4.x < 1 - EPSILON) →
      (EPSILON < dimFraction p1.y p2.y p3.y p4.y ∧
        dimFraction p1.y p2.y p3.y p4.y < 1 - EPSILON) →
      (EPSILON < dimFraction p1.z p2.z p3.z p4.z ∧
        dimFraction p1.z p2.z p3.z p4.z < 1 - EPSILON) →
      tgeompointseq_intersection3D p1 p2 p3 p4 t1 t2 =
        if EPSILON < |dimFraction p1.x p2.x p3.x p4.x -
              dimFraction p1.y p2.y p3.y p4.y| ∧
            EPSILON < |dimFraction p1.x p2.x p3.x p4.x -
              dimFraction p1.z p2.z p3.z p4.z| then none
        else some (t1 + ctrunc (((t2 - t1 : ℤ) : ℚ) *
          dimFraction p1.x p2.x p3.x p4.x))) ∧
    (∀ (q1 q2 q3 q4 : Point2) (u1 u2 t : ℤ),
      tgeompointseq_intersection2D q1 q2 q3 q4 u1 u2 = some t →
      dimDenum q1.x q2.x q3.x q4.x ≠ 0 →
      dimDenum q1.y q2.y q3.y q4.y ≠ 0 →
      |dimFraction q1.x q2.x q3.x q4.x -
        dimFraction q1.y q2.y q3.y q4.y| ≤ EPSILON) ∧
    (∀ (A1 A2 B1 B2 : Point3) (v1 v2 : ℤ),
      dimDenum A1.x A2.x B1.x B2.x ≠ 0 →
      dimDenum A1.y A2.y B1.y B2.y ≠ 0 →
      dimDenum A1.z A2.z B1.z B2.z ≠ 0 →
      (EPSILON < dimFraction A1.x A2.x B1.x B2.x ∧
        dimFraction A1.x A2.x B1.x B2.x < 1 - EPSILON) →
      (EPSILON < dimFraction A1.y A2.y B1.y B2.y ∧
        dimFraction A1.y A2.y B1.y B2.y < 1 - EPSILON) →
      (EPSILON < dimFraction A1.z A2.z B1.z B2.z ∧
        dimFraction A1.z A2.z B1.z B2.z < 1 - EPSILON) →
      |dimFraction A1.x A2.x B1.x B2.x -
        dimFraction A1.y A2.y B1.y B2.y| ≤ EPSILON →
      |dimFraction A1.x A2.x B1.x B2.x -
        dimFraction A1.z A2.z B1.z B2.z| ≤ EPSILON →
      tgeogpointseq_intersection_cart true A1 A2 B1 B2 v1 v2 =
        some (v1 + ctrunc (((v2 - v1 : ℤ) : ℚ) *
          ((dimFraction A1.x A2.x B1.x B2.x +
            dimFraction A1.y A2.y B1.y B2.y +
            dimFraction A1.z A2.z B1.z B2.z) / 3)))) := by
  refine ⟨?_, ?_, ?_⟩
  · intro p1 p2 p3 p4 t1 t2 hx hy hz hxr hyr hzr
    simp only [tgeompointseq_intersection3D]
    rw [if_neg (by tauto)]
    rw [if_neg (by rintro ⟨-, hc | hc⟩ <;> linarith [hxr.1, hxr.2])]
    rw [if_neg (by rintro ⟨-, hc | hc⟩ <;> linarith [hyr.1, hyr.2])]
    rw [if_neg (by rintro ⟨-, hc | hc⟩ <;> linarith [hzr.1, hzr.2])]
    by_cases hd : EPSILON < |dimFraction p1.x p2.x p3.x p4.x -
          dimFraction p1.y p2.y p3.y p4.y| ∧
        EPSILON < |dimFraction p1.x p2.x p3.x p4.x -
          dimFraction p1.z p2.z p3.z p4.z|
    · rw [if_pos (Or.inl ⟨hx, hy, hz, hd.1, hd.2⟩), if_pos hd]
    · rw [if_neg (by
        rintro (⟨-, -, -, h4, h5⟩ | ⟨h0, -⟩ | ⟨-, h0, -⟩ | ⟨-, -, h0, -⟩)
        · exact hd ⟨h4, h5⟩
        · exact hx h0
        · exact hy h0
        · exact hz h0), if_neg hd, if_pos hx]
  · intro q1 q2 q3 q4 u1 u2 t h hqx hqy
    simp only [tgeompointseq_intersection2D] at h
    split_ifs at h with h1 h2 h3 h4
    exact le_of_not_lt fun hc => h4 ⟨hqx, hqy, hc⟩
  · intro A1 A2 B1 B2 v1 v2 hx hy hz hxr hyr hzr hxy hxz
    simp only [tgeogpointseq_intersection_cart, Bool.not_true,
      Bool.false_eq_true, if_false]
    rw [if_neg (by tauto)]
    rw [if_neg (by rintro ⟨-, hc | hc⟩ <;> linarith [hxr.1, hxr.2])]
    rw [if_neg (by rintro ⟨-, hc | hc⟩ <;> linarith [hyr.1, hyr.2])]
    rw [if_neg (by rintro ⟨-, hc | hc⟩ <;> linarith [hzr.1, hzr.2])]
    rw [if_pos ⟨hx, hy, hz, hxy, hxz⟩]
    rfl

/-- Witness for C7 at concrete segments. -/
theorem C7_pointseq_intersection_agreement_witness :
    (dimDenum 0 2 1 1 ≠ 0 ∧
      (EPSILON < dimFraction 0 2 1 1 ∧ dimFraction 0 2 1 1 < 1 - EPSILON)) ∧
      (tgeompointseq_intersection3D ⟨0, 0, 0⟩ ⟨2, 2, 2⟩ ⟨1, 1, 1⟩ ⟨1, 1, 1⟩
          0 10 =
        if EPSILON < |dimFraction 0 2 1 1 - dimFraction 0 2 1 1| ∧
            EPSILON < |dimFraction 0 2 1 1 - dimFraction 0 2 1 1| then none
        else some (0 + ctrunc (((10 - 0 : ℤ) : ℚ) * dimFraction 0 2 1 1))) ∧
      (tgeogpointseq_intersection_cart true ⟨0, 0, 0⟩ ⟨2, 2, 2⟩ ⟨1, 1, 1⟩
          ⟨1, 1, 1⟩ 0 10 =
        some (0 + ctrunc (((10 - 0 : ℤ) : ℚ) *
          ((dimFraction 0 2 1 1 + dimFraction 0 2 1 1 +
            dimFraction 0 2 1 1) / 3)))) ∧
      (tgeompointseq_intersection2D ⟨0, 0⟩ ⟨2, 2⟩ ⟨1, 1⟩ ⟨1, 1⟩ 0 10 =
          some 5 ∧
        |dimFraction 0 2 1 1 - dimFraction 0 2 1 1| ≤ EPSILON) := by
  have hden : dimDenum (0 : ℚ) 2 1 1 ≠ 0 := by norm_num [dimDenum]
  have hfr : EPSILON < dimFraction 0 2 1 1 ∧
      dimFraction 0 2 1 1 < 1 - EPSILON := by
    norm_num [dimFraction, dimDenum, EPSILON]
  have hagree : |dimFraction (0 : ℚ) 2 1 1 - dimFraction 0 2 1 1| ≤
      EPSILON := by
    norm_num [EPSILON]
  have h2d : tgeompointseq_intersection2D ⟨0, 0⟩ ⟨2, 2⟩ ⟨1, 1⟩ ⟨1, 1⟩ 0 10 =
      some 5 := by
    norm_num [tgeompointseq_intersection2D, dimFraction, dimDenum, EPSILON,
      ctrunc, abs_of_nonneg, abs_of_nonpos]
  refine ⟨⟨hden, hfr⟩, ?_, ?_, h2d, ?_⟩
  · exact C7_pointseq_intersection_agreement.1 ⟨0, 0, 0⟩ ⟨2, 2, 2⟩ ⟨1, 1, 1⟩
      ⟨1, 1, 1⟩ 0 10 hden hden hden hfr hfr hfr
  · exact C7_pointseq_intersection_agreement.2.2 ⟨0, 0, 0⟩ ⟨2, 2, 2⟩
      ⟨1, 1, 1⟩ ⟨1, 1, 1⟩ 0 10 hden hden hden hfr hfr hfr hagree hagree
  · exact C7_pointseq_intersection_agreement.2.1 ⟨0, 0⟩ ⟨2, 2⟩ ⟨1, 1⟩
      ⟨1, 1⟩ 0 10 5 h2d hden hden

/-!  ### Claim C10: equality and hashing (tsequence.c:4233-4342)  -/

/-- Modelled from the spec: `tinstant_eq` of the external Instant
collaborator (§6: "equality/ordering over Value") — two instants are equal
when they carry the same value at the same timestamp. -/
def tinstant_eq (inst1 inst2 : TInstant) : Bool := inst1 == inst2

/-- Minimum base value over the instants (the numeric bounding-box `xmin`;
the cached box is always consistent with the instant run, §3). -/
def tsequence_vmin (seq : TSequence) : ℚ :=
  seq.insts.foldl (fun m inst => min m inst.value)
    (seq.insts.headD default).value

/-- Maximum base value over the instants (the numeric bounding-box `xmax`). -/
def tsequence_vmax (seq : TSequence) : ℚ :=
  seq.insts.foldl (fun m inst => max m inst.value)
    (seq.insts.headD default).value

/-- Embeds `tsequence_eq` (src/src/tsequence.c:4233-4257): equal counts,
equal flags (for the scalar kind the interpolation flag), equal periods,
equal bounding boxes (derived, hence the value extrema), then the instants
pairwise. -/
def tsequence_eq (seq1 seq2 : TSequence) : Bool :=
  (seq1.insts.length == seq2.insts.length) &&
  (seq1.linear == seq2.linear) &&
  (seq1.lowerT == seq2.lowerT) && (seq1.upperT == seq2.upperT) &&
  (seq1.lower_inc == seq2.lower_inc) && (seq1.upper_inc == seq2.upper_inc) &&
  (tsequence_vmin seq1 == tsequence_vmin seq2) &&
  (tsequence_vmax seq1 == tsequence_vmax seq2) &&
  (seq1.insts.zip seq2.insts).all fun p => tinstant_eq p.1 p.2

/-- Modelled from the spec: PostgreSQL's `hash_uint32` (external) — some
fixed 32-bit mixing function; its exact mixing is internal to the host. -/
def hash_uint32 (n : ℕ) : ℕ := (n * 2654435761 + 40503) % 2 ^ 32

/-- Modelled from the spec: `tinstant_hash` of the external Instant
collaborator — a fixed function of the instant's value and timestamp
alone. -/
def tinstant_hash (inst : TInstant) : ℕ :=
  ((inst.value.num.natAbs * 31 + inst.value.den) * 31 +
    inst.t.natAbs * 17 +
    (if inst.t < 0 then 1 else 0) + (if inst.value.num < 0 then 2 else 0)) %
    2 ^ 32

/-- Embeds `tsequence_hash` (src/src/tsequence.c:4321-4342): the two
bound-inclusivity flags are folded into a seed, then each instant's hash is
combined in order with `result = (result << 5) - result + inst_hash` in
32-bit arithmetic. -/
def tsequence_hash (seq : TSequence) : ℕ :=
  let flags : ℕ :=
    (if seq.lower_inc then 1 else 0) + (if seq.upper_inc then 2 else 0)
  seq.insts.foldl
    (fun result inst => (result * 32 - result + tinstant_hash inst) % 2 ^ 32)
    (hash_uint32 flags)

lemma zip_all_tinstant_eq :
    ∀ l1 l2 : List TInstant, l1.length = l2.length →
      ((l1.zip l2).all fun p => tinstant_eq p.1 p.2) = true → l1 = l2 := by
  intro l1
  induction l1 with
  | nil =>
    intro l2 hlen _
    exact (List.length_eq_zero.mp hlen.symm).symm
  | cons a l1 ih =>
    intro l2 hlen hall
    cases l2 with
    | nil => simp at hlen
    | cons b l2 =>
      simp only [List.zip_cons_cons, List.all_cons, Bool.and_eq_true,
        tinstant_eq, beq_iff_eq] at hall
      simp only [List.length_cons, Nat.succ_inj] at hlen
      rw [hall.1, ih l2 hlen hall.2]

/-- C10: hashing is consistent with equality — `tsequence_eq` implies equal
hashes, the hash depending only on the bound-inclusivity flags and the
ordered instant contents. -/
theorem C10_hash_consistent_with_eq (seq1 seq2 : TSequence)
    (h : tsequence_eq seq1 seq2 = true) :
    tsequence_hash seq1 = tsequence_hash seq2 := by
  simp only [tsequence_eq, Bool.and_eq_true, beq_iff_eq] at h
  obtain ⟨⟨⟨⟨⟨⟨⟨⟨hlen, -⟩, -⟩, -⟩, hli⟩, hui⟩, -⟩, -⟩, hall⟩ := h
  have hinsts : seq1.insts = seq2.insts := zip_all_tinstant_eq _ _ hlen hall
  rw [tsequence_hash, tsequence_hash, hinsts, hli, hui]

/-- Witness for C10: a pair of equal sequences. -/
theorem C10_hash_consistent_with_eq_witness :
    tsequence_eq ⟨[⟨1, 0⟩, ⟨2, 5⟩], true, false, false⟩
        ⟨[⟨1, 0⟩, ⟨2, 5⟩], true, false, false⟩ = true ∧
      tsequence_hash ⟨[⟨1, 0⟩, ⟨2, 5⟩], true, false, false⟩ =
        tsequence_hash ⟨[⟨1, 0⟩, ⟨2, 5⟩], true, false, false⟩ :=
  ⟨by decide,
   C10_hash_consistent_with_eq _ _ (by decide)⟩

/-!  ### Claim C8: binary wire round-trip (tsequence.c:1773-1810)  -/

/-- One unit of the wire buffer (`StringInfo`): a raw byte, or the
serialized form of one instant.  The instant's own byte encoding belongs to
the external Instant collaborator (`tinstant_write`/`tinstant_read`), so it
is kept atomic here. -/
inductive WireTok where
  | byte (b : ℕ)
  | inst (inst : TInstant)
deriving DecidableEq, Repr

/-- `pq_sendint32` (external host primitive): four bytes, most significant
first (network order). -/
def pq_sendint32 (n : ℕ) : List WireTok :=
  [.byte (n / 2 ^ 24 % 256), .byte (n / 2 ^ 16 % 256),
   .byte (n / 2 ^ 8 % 256), .byte (n % 256)]

/-- `pq_getmsgint(buf, 4)` (external host primitive): consume four bytes,
most significant first. -/
def pq_getmsgint32 : List WireTok → Option (ℕ × List WireTok)
  | .byte b3 :: .byte b2 :: .byte b1 :: .byte b0 :: rest =>
    some (((b3 * 256 + b2) * 256 + b1) * 256 + b0, rest)
  | _ => none

/-- Embeds `tsequence_write` (src/src/tsequence.c:1773-1789): `count` as a
4-byte integer, then `lower_inc`, `upper_inc` and the linear flag as one
byte each holding 0 or 1, then the instants in order. -/
def tsequence_write (seq : TSequence) : List WireTok :=
  pq_sendint32 seq.insts.length ++
  [WireTok.byte (if seq.lower_inc then 1 else 0),
   WireTok.byte (if seq.upper_inc then 1 else 0),
   WireTok.byte (if seq.linear then 1 else 0)] ++
  seq.insts.map WireTok.inst

/-- The instant-reading loop of `tsequence_read`
(src/src/tsequence.c:1806-1807): consume `count` serialized instants. -/
def readInstants : ℕ → List WireTok → Option (List TInstant × List WireTok)
  | 0, buf => some ([], buf)
  | n + 1, WireTok.inst inst :: buf =>
    (readInstants n buf).map fun p => (inst :: p.1, p.2)
  | _ + 1, _ => none

/-- Embeds `tsequence_read` (src/src/tsequence.c:1798-1810): read the count,
the three flag bytes (any nonzero byte is a true flag, as in the C cast to
`bool`), the instants, and rebuild through `tsequence_make` with
`NORMALIZE`. -/
def tsequence_read (buf : List WireTok) :
    Option (TSequence × List WireTok) :=
  match pq_getmsgint32 buf with
  | none => none
  | some (count, buf1) =>
    match buf1 with
    | WireTok.byte bl :: WireTok.byte bu :: WireTok.byte blin :: buf2 =>
      match readInstants count buf2 with
      | none => none
      | some (instants, buf3) =>
        match tsequence_make instants (bl != 0) (bu != 0) (blin != 0) true
          with
        | none => none
        | some seq => some (seq, buf3)
    | _ => none

/-- The §3 invariant that the instant run is normalized: the normalization
pass leaves it unchanged. -/
def TSequence.Normalized (s : TSequence) : Prop :=
  tinstantarr_normalize s.linear s.insts = s.insts

instance (s : TSequence) : Decidable s.Valid :=
  inferInstanceAs (Decidable
    (tsequence_make s.insts s.lower_inc s.upper_inc s.linear false = some s))

instance (s : TSequence) : Decidable s.Normalized :=
  inferInstanceAs (Decidable (tinstantarr_normalize s.linear s.insts =
    s.insts))

lemma pq_int32_roundtrip (n : ℕ) (rest : List WireTok) (h : n < 2 ^ 32) :
    pq_getmsgint32 (pq_sendint32 n ++ rest) = some (n, rest) := by
  simp only [pq_sendint32, pq_getmsgint32, List.cons_append, List.nil_append]
  congr 2
  omega

lemma readInstants_roundtrip (l : List TInstant) (rest : List WireTok) :
    readInstants l.length (l.map WireTok.inst ++ rest) = some (l, rest) := by
  induction l with
  | nil => simp [readInstants]
  | cons a l ih => simp [readInstants, ih]

lemma valid_destruct {s : TSequence} (h : s.Valid) :
    s.insts ≠ [] ∧ validTimestamps s.insts = true ∧
      ¬(s.insts.length = 1 ∧ ¬(s.lower_inc = true ∧ s.upper_inc = true)) ∧
      ¬(¬(s.linear = true) ∧ 1 < s.insts.length ∧ ¬(s.upper_inc = true) ∧
        (s.insts.getD (s.insts.length - 1) default).value ≠
          (s.insts.getD (s.insts.length - 2) default).value) := by
  rw [TSequence.Valid, tsequence_make] at h
  split_ifs at h with h0 h1 h2 h3
  all_goals exact ⟨by simpa using h0, h1, h2, h3⟩

/-- C8: decoding the binary encoding of a valid (hence normalized) sequence
yields the sequence back and consumes exactly its bytes; the encoding lays
out `count:int32, lower_inc:byte, upper_inc:byte, linear:byte` then the
instants in timestamp order.  (`count` is a C `int32`, whence the size
bound.) -/
theorem C8_wire_roundtrip (s : TSequence) (h : s.Valid) (hn : s.Normalized)
    (hlen : s.insts.length < 2 ^ 32) :
    tsequence_read (tsequence_write s) = some (s, []) := by
  obtain ⟨hne, hts, h2, h3⟩ := valid_destruct h
  have hmk : tsequence_make s.insts (((if s.lower_inc then 1 else 0) : ℕ)
      != 0) (((if s.upper_inc then 1 else 0) : ℕ) != 0)
      (((if s.linear then 1 else 0) : ℕ) != 0) true = some s := by
    have hbl : (((if s.lower_inc then 1 else 0) : ℕ) != 0) = s.lower_inc :=
      by cases s.lower_inc <;> decide
    have hbu : (((if s.upper_inc then 1 else 0) : ℕ) != 0) = s.upper_inc :=
      by cases s.upper_inc <;> decide
    have hbi : (((if s.linear then 1 else 0) : ℕ) != 0) = s.linear :=
      by cases s.linear <;> decide
    have hn' : tinstantarr_normalize s.linear s.insts = s.insts := hn
    rw [hbl, hbu, hbi, tsequence_make,
      if_neg (by simpa using hne), if_neg (by simp [hts]), if_neg h2,
      if_neg h3]
    by_cases hlong : 1 < s.insts.length
    · rw [if_pos ⟨rfl, hlong⟩, hn']
    · rw [if_neg fun hc => hlong hc.2]
  have hread : readInstants s.insts.length (s.insts.map WireTok.inst) =
      some (s.insts, []) := by
    simpa using readInstants_roundtrip s.insts []
  simp only [tsequence_write, tsequence_read, List.append_assoc,
    pq_int32_roundtrip _ _ hlen, List.cons_append, List.nil_append, hread,
    hmk]

/-- Witness for C8: a concrete two-instant step sequence round-trips. -/
theorem C8_wire_roundtrip_witness :
    (⟨[⟨1, 0⟩, ⟨2, 5⟩], true, true, false⟩ : TSequence).Valid ∧
      (⟨[⟨1, 0⟩, ⟨2, 5⟩], true, true, false⟩ : TSequence).Normalized ∧
      (⟨[⟨1, 0⟩, ⟨2, 5⟩], true, true, false⟩ : TSequence).insts.length <
        2 ^ 32 ∧
      tsequence_read
          (tsequence_write ⟨[⟨1, 0⟩, ⟨2, 5⟩], true, true, false⟩) =
        some (⟨[⟨1, 0⟩, ⟨2, 5⟩], true, true, false⟩, []) :=
  ⟨by decide, by decide, by decide,
   C8_wire_roundtrip _ (by decide) (by decide) (by decide)⟩

/-!  ### Timestamp lookup and evaluation (tsequence.c:1412-1434, 3436-3534)  -/

/-- `tsequence_inst_n` (src/src/tsequence.c:829-835) with the C `int` index
as an integer; out-of-range access (undefined behaviour in C) yields the
default instant. -/
def instN (s : TSequence) (n : ℤ) : TInstant := s.insts.getD n.toNat default

/-- The found-test of the binary search (src/src/tsequence.c:1422-1426):
the timestamp lies in segment `middle`, where only the first segment honours
the sequence's lower-bound flag and only the last honours the upper-bound
flag; interior segment bounds are `[inclusive, exclusive)`. -/
def tsFoundCond (s : TSequence) (t middle : ℤ) : Bool :=
  decide ((instN s middle).t < t ∧ t < (instN s (middle + 1)).t) ||
  ((if middle = 0 then s.lower_inc else true) &&
    decide ((instN s middle).t = t)) ||
  ((if middle = (s.insts.length : ℤ) - 2 then s.upper_inc else false) &&
    decide ((instN s (middle + 1)).t = t))

/-- The `while` loop of `tsequence_find_timestamp`
(src/src/tsequence.c:1415-1432). -/
def findLoop (s : TSequence) (t first last : ℤ) : ℤ :=
  if h : first ≤ last then
    if tsFoundCond s t ((first + last) / 2) then (first + last) / 2
    else if t ≤ (instN s ((first + last) / 2)).t then
      findLoop s t first ((first + last) / 2 - 1)
    else findLoop s t ((first + last) / 2 + 1) last
  else -1
termination_by (last + 1 - first).toNat
decreasing_by
  · omega
  · omega

/-- Embeds `tsequence_find_timestamp` (src/src/tsequence.c:1412-1434):
binary search for the segment containing `t`, `-1` when absent. -/
def tsequence_find_timestamp (s : TSequence) (t : ℤ) : ℤ :=
  findLoop s t 0 ((s.insts.length : ℤ) - 2)

/-- Modelled from the spec: `contains_period_timestamp_internal` of the
external Period collaborator (§3): the timestamp lies strictly between the
bounds or at an inclusive bound. -/
def containsPeriodT (lower upper : ℤ) (lower_inc upper_inc : Bool)
    (t : ℤ) : Prop :=
  (lower < t ∨ (lower_inc = true ∧ t = lower)) ∧
  (t < upper ∨ (upper_inc = true ∧ t = upper))

instance (lower upper : ℤ) (lower_inc upper_inc : Bool) (t : ℤ) :
    Decidable (containsPeriodT lower upper lower_inc upper_inc t) :=
  inferInstanceAs (Decidable
    ((lower < t ∨ (lower_inc = true ∧ t = lower)) ∧
     (t < upper ∨ (upper_inc = true ∧ t = upper))))

/-- Embeds `tsequence_value_at_timestamp1` (src/src/tsequence.c:3436-3504)
for the scalar base kind: constant segment / lower bound / step hold the
start value, the upper bound yields the end value, otherwise linear
interpolation at the duration ratio. -/
def tsequence_value_at_timestamp1 (inst1 inst2 : TInstant) (linear : Bool)
    (t : ℤ) : ℚ :=
  if inst1.value = inst2.value ∨ inst1.t = t ∨
      (linear = false ∧ t < inst2.t) then inst1.value
  else if inst2.t = t then inst2.value
  else
    let ratio := ((t - inst1.t : ℤ) : ℚ) / ((inst2.t - inst1.t : ℤ) : ℚ)
    inst1.value + (inst2.value - inst1.value) * ratio

/-- Embeds `tsequence_value_at_timestamp` (src/src/tsequence.c:3514-3534):
bounding-period test, instantaneous shortcut, then binary search and
segment evaluation.  `none` models `return false`. -/
def tsequence_value_at_timestamp (s : TSequence) (t : ℤ) : Option ℚ :=
  if ¬ containsPeriodT s.lowerT s.upperT s.lower_inc s.upper_inc t then none
  else if s.insts.length = 1 then some (s.insts.headD default).value
  else
    let n := tsequence_find_timestamp s t
    some (tsequence_value_at_timestamp1 (instN s n) (instN s (n + 1))
      s.linear t)

/-!  Sortedness utilities.  -/

instance : IsTrans TInstant (fun a b => a.t < b.t) :=
  ⟨fun _ _ _ h1 h2 => lt_trans h1 h2⟩

lemma sorted_t_lt {s : TSequence} (hs : validTimestamps s.insts = true)
    {a b : ℕ} (hab : a < b) (hb : b < s.insts.length) :
    (s.insts.getD a default).t < (s.insts.getD b default).t := by
  have hp : s.insts.Pairwise (fun x y => x.t < y.t) :=
    List.chain'_iff_pairwise.mp ((validTimestamps_iff_chain _).mp hs)
  have ha : a < s.insts.length := lt_trans hab hb
  rw [List.getD_eq_getElem _ _ ha, List.getD_eq_getElem _ _ hb]
  exact List.pairwise_iff_getElem.mp hp a b ha hb hab

lemma sorted_t_le {s : TSequence} (hs : validTimestamps s.insts = true)
    {a b : ℕ} (hab : a ≤ b) (hb : b < s.insts.length) :
    (s.insts.getD a default).t ≤ (s.insts.getD b default).t := by
  rcases lt_or_eq_of_le hab with h | h
  · exact le_of_lt (sorted_t_lt hs h hb)
  · rw [h]

lemma sorted_t_inj {s : TSequence} (hs : validTimestamps s.insts = true)
    {a b : ℕ} (ha : a < s.insts.length) (hb : b < s.insts.length)
    (h : (s.insts.getD a default).t = (s.insts.getD b default).t) :
    a = b := by
  rcases lt_trichotomy a b with hab | hab | hab
  · exact absurd h (ne_of_lt (sorted_t_lt hs hab hb))
  · exact hab
  · exact absurd h.symm (ne_of_lt (sorted_t_lt hs hab ha))

lemma instN_lt {s : TSequence} (hs : validTimestamps s.insts = true)
    {a b : ℤ} (h0 : 0 ≤ a) (hab : a < b) (hb : b < (s.insts.length : ℤ)) :
    (instN s a).t < (instN s b).t := by
  have h1 : a.toNat < b.toNat := by omega
  have h2 : b.toNat < s.insts.length := by omega
  exact sorted_t_lt hs h1 h2

lemma instN_le {s : TSequence} (hs : validTimestamps s.insts = true)
    {a b : ℤ} (h0 : 0 ≤ a) (hab : a ≤ b) (hb : b < (s.insts.length : ℤ)) :
    (instN s a).t ≤ (instN s b).t := by
  have h1 : a.toNat ≤ b.toNat := by omega
  have h2 : b.toNat < s.insts.length := by omega
  exact sorted_t_le hs h1 h2

lemma instN_inj {s : TSequence} (hs : validTimestamps s.insts = true)
    {a b : ℤ} (ha0 : 0 ≤ a) (ha : a < (s.insts.length : ℤ)) (hb0 : 0 ≤ b)
    (hb : b < (s.insts.length : ℤ))
    (h : (instN s a).t = (instN s b).t) : a = b := by
  have := sorted_t_inj hs (a := a.toNat) (b := b.toNat) (by omega) (by omega)
    h
  omega

/-- The found-test as a proposition. -/
def FoundAt (s : TSequence) (t n : ℤ) : Prop :=
  ((instN s n).t < t ∧ t < (instN s (n + 1)).t) ∨
  ((n = 0 → s.lower_inc = true) ∧ (instN s n).t = t) ∨
  ((n = (s.insts.length : ℤ) - 2 ∧ s.upper_inc = true) ∧
    (instN s (n + 1)).t = t)

lemma tsFoundCond_iff (s : TSequence) (t n : ℤ) :
    tsFoundCond s t n = true ↔ FoundAt s t n := by
  unfold tsFoundCond FoundAt
  by_cases h0 : n = 0 <;>
    by_cases h2 : n = (s.insts.length : ℤ) - 2 <;>
      simp [h0, h2] <;> tauto

lemma findLoop_eq_of_found (s : TSequence) (t : ℤ)
    (hs : validTimestamps s.insts = true) (nstar : ℤ)
    (hfound : FoundAt s t nstar)
    (huniq : ∀ m : ℤ, 0 ≤ m → m ≤ (s.insts.length : ℤ) - 2 →
      FoundAt s t m → m = nstar) :
    ∀ (k : ℕ) (first last : ℤ), (last + 1 - first).toNat ≤ k →
      0 ≤ first → first ≤ nstar → nstar ≤ last →
      last ≤ (s.insts.length : ℤ) - 2 →
      findLoop s t first last = nstar := by
  intro k
  induction k with
  | zero => intro first last hk h0 h1 h2 h3; omega
  | succ k ih =>
    intro first last hk h0 h1 h2 h3
    have hle : first ≤ last := le_trans h1 h2
    have hm1 : first ≤ (first + last) / 2 := by omega
    have hm2 : (first + last) / 2 ≤ last := by omega
    rw [findLoop, dif_pos hle]
    set middle := (first + last) / 2 with hmid
    by_cases hfm : tsFoundCond s t middle = true
    · rw [if_pos hfm]
      exact huniq middle (by omega) (by omega)
        ((tsFoundCond_iff _ _ _).mp hfm)
    · rw [if_neg hfm]
      have hfm' : ¬ FoundAt s t middle := fun hf =>
        hfm ((tsFoundCond_iff _ _ _).mpr hf)
      by_cases hcmp : t ≤ (instN s middle).t
      · rw [if_pos hcmp]
        have hnm : nstar < middle := by
          by_contra hc
          push_neg at hc
          rcases id hfound with ⟨ha1, _⟩ | ⟨_, hb2⟩ | ⟨⟨hc1, _⟩, hc3⟩
          · have : (instN s middle).t ≤ (instN s nstar).t :=
              instN_le hs (by omega) hc (by omega)
            linarith
          · have hmle : (instN s middle).t ≤ (instN s nstar).t :=
              instN_le hs (by omega) hc (by omega)
            have heq : (instN s middle).t = (instN s nstar).t := by
              omega
            have hmn : middle = nstar :=
              instN_inj hs (by omega) (by omega) (by omega) (by omega) heq
            exact hfm' (hmn ▸ hfound)
          · have : (instN s middle).t < (instN s (nstar + 1)).t :=
              instN_lt hs (by omega) (by omega) (by omega)
            omega
        exact ih first (middle - 1) (by omega) h0 h1 (by omega) (by omega)
      · rw [if_neg hcmp]
        push_neg at hcmp
        have hnm : middle < nstar := by
          by_contra hc
          push_neg at hc
          rcases lt_or_eq_of_le hc with hlt | heq
          · rcases id hfound with ⟨_, ha2⟩ | ⟨_, hb2⟩ | ⟨⟨hc1, _⟩, hc3⟩
            · have : (instN s (nstar + 1)).t ≤ (instN s middle).t :=
                instN_le hs (by omega) (by omega) (by omega)
              linarith
            · have : (instN s nstar).t ≤ (instN s middle).t :=
                instN_le hs (by omega) (by omega) (by omega)
              omega
            · omega
          · exact hfm' (heq ▸ hfound)
        exact ih (middle + 1) last (by omega) (by omega) (by omega) h2 h3

lemma lowerT_eq_getD (s : TSequence) :
    s.lowerT = (s.insts.getD 0 default).t := by
  rw [TSequence.lowerT]
  cases s.insts <;> rfl

lemma getLastD_eq_getD (l : List TInstant) (d : TInstant) (h : l ≠ []) :
    l.getLastD d = l.getD (l.length - 1) d := by
  induction l generalizing d with
  | nil => exact absurd rfl h
  | cons a l ih =>
    cases l with
    | nil => rfl
    | cons b r =>
      rw [List.getLastD_cons, ih a (by simp)]
      have h1 : r.length < (b :: r).length := by simp
      have h2 : r.length + 1 < (a :: b :: r).length := by simp
      rw [show (b :: r).length - 1 = r.length from by simp,
        show (a :: b :: r).length - 1 = r.length + 1 from by simp,
        List.getD_eq_getElem _ _ h1, List.getD_eq_getElem _ _ h2]
      rfl

lemma upperT_eq_getD (s : TSequence) (h : s.insts ≠ []) :
    s.upperT = (s.insts.getD (s.insts.length - 1) default).t := by
  rw [TSequence.upperT, getLastD_eq_getD _ _ h]

lemma instN_natCast (s : TSequence) (k : ℕ) :
    instN s (k : ℤ) = s.insts.getD k default := by
  simp [instN]

/-!  ### Claim C4: evaluation at stored instants  -/

/-- C4 (counterexample): on the valid linear sequence `(1@0, 2@1]` with an
exclusive lower bound, evaluating at the stored first instant `1@0` does not
return `1` — the bounding-period containment test fails and the function
reports "not contained". -/
theorem C4_counterexample :
    (⟨[⟨1, 0⟩, ⟨2, 1⟩], false, true, true⟩ : TSequence).Valid ∧
      (⟨1, 0⟩ : TInstant) ∈
        (⟨[⟨1, 0⟩, ⟨2, 1⟩], false, true, true⟩ : TSequence).insts ∧
      tsequence_value_at_timestamp
        ⟨[⟨1, 0⟩, ⟨2, 1⟩], false, true, true⟩ 0 = none := by
  refine ⟨by decide, by decide, ?_⟩
  rw [tsequence_value_at_timestamp, if_pos]
  decide

/-- C4 (amended): evaluating a valid sequence at the timestamp of any stored
instant whose timestamp the sequence period contains — every interior
instant, the first instant when the lower bound is inclusive, the last when
the upper bound is inclusive — succeeds and returns that instant's value.
(At an instant sitting on an exclusive bound the evaluation returns nothing;
that case belongs to `tsequence_value_at_timestamp_inc`.) -/
theorem C4_value_at_stored_instant (s : TSequence) (hval : s.Valid)
    (i : ℕ) (hi : i < s.insts.length)
    (hlo : i = 0 → s.lower_inc = true)
    (hhi : i = s.insts.length - 1 → s.upper_inc = true) :
    tsequence_value_at_timestamp s (s.insts.getD i default).t =
      some (s.insts.getD i default).value := by
  obtain ⟨hne, hs, -, -⟩ := valid_destruct hval
  have hlen1 : 1 ≤ s.insts.length := List.length_pos.mpr hne
  have hcont : containsPeriodT s.lowerT s.upperT s.lower_inc s.upper_inc
      (s.insts.getD i default).t := by
    constructor
    · rw [lowerT_eq_getD]
      rcases Nat.eq_zero_or_pos i with h0 | h0
      · exact Or.inr ⟨hlo h0, by rw [h0]⟩
      · exact Or.inl (sorted_t_lt hs h0 hi)
    · rw [upperT_eq_getD s hne]
      rcases eq_or_lt_of_le (Nat.le_sub_one_of_lt hi) with h0 | h0
      · exact Or.inr ⟨hhi h0, by rw [h0]⟩
      · exact Or.inl (sorted_t_lt hs h0 (by omega))
  rw [tsequence_value_at_timestamp, if_neg (not_not_intro hcont)]
  by_cases hone : s.insts.length = 1
  · rw [if_pos hone]
    have hi0 : i = 0 := by omega
    obtain ⟨a, r, hl⟩ : ∃ a r, s.insts = a :: r := by
      cases hc : s.insts with
      | nil => exact absurd hc hne
      | cons a r => exact ⟨a, r, rfl⟩
    rw [hi0, hl]
    rfl
  · rw [if_neg hone]
    have hlen2 : 2 ≤ s.insts.length := by omega
    have hiZ : ((i : ℤ)).toNat = i := by omega
    have hinsti : instN s (i : ℤ) = s.insts.getD i default :=
      instN_natCast s i
    rcases Nat.lt_or_ge i (s.insts.length - 1) with hcase | hcase
    · -- interior or first instant: the segment is i itself
      have hfound : FoundAt s (s.insts.getD i default).t (i : ℤ) := by
        refine Or.inr (Or.inl ⟨fun h => hlo (by omega), ?_⟩)
        rw [hinsti]
      have huniq : ∀ m : ℤ, 0 ≤ m → m ≤ (s.insts.length : ℤ) - 2 →
          FoundAt s (s.insts.getD i default).t m → m = (i : ℤ) := by
        intro m hm0 hm2 hfm
        rcases hfm with ⟨h1, h2⟩ | ⟨-, hb2⟩ | ⟨⟨hcm, -⟩, hc3⟩
        · rw [← hinsti] at h1 h2
          have hmi : m < (i : ℤ) := by
            by_contra hc
            push_neg at hc
            have := instN_le hs (by omega) hc (by omega)
            linarith
          have him : (i : ℤ) < m + 1 := by
            by_contra hc
            push_neg at hc
            have := instN_le hs (by omega) hc (by omega)
            linarith
          omega
        · rw [← hinsti] at hb2
          exact instN_inj hs hm0 (by omega) (by omega) (by omega) hb2
        · rw [← hinsti] at hc3
          have : m + 1 = (i : ℤ) :=
            instN_inj hs (by omega) (by omega) (by omega) (by omega) hc3
          omega
      have hfind : tsequence_find_timestamp s (s.insts.getD i default).t =
          (i : ℤ) := by
        rw [tsequence_find_timestamp]
        exact findLoop_eq_of_found s _ hs (i : ℤ) hfound huniq
          ((s.insts.length : ℤ) - 1).toNat 0 ((s.insts.length : ℤ) - 2)
          (by omega) (by omega) (by omega) (by omega) (by omega)
      rw [hfind]
      simp only [tsequence_value_at_timestamp1]
      rw [if_pos (Or.inr (Or.inl (by rw [hinsti]))), hinsti]
    · -- the last instant: found in the final segment via the upper bound
      have hilast : i = s.insts.length - 1 := by omega
      have hstar : ((s.insts.length : ℤ) - 2) + 1 = (i : ℤ) := by omega
      have hinst2 : instN s (((s.insts.length : ℤ) - 2) + 1) =
          s.insts.getD i default := by
        rw [hstar, hinsti]
      have hfound : FoundAt s (s.insts.getD i default).t
          ((s.insts.length : ℤ) - 2) := by
        refine Or.inr (Or.inr ⟨⟨rfl, hhi hilast⟩, ?_⟩)
        rw [hinst2]
      have huniq : ∀ m : ℤ, 0 ≤ m → m ≤ (s.insts.length : ℤ) - 2 →
          FoundAt s (s.insts.getD i default).t m →
          m = (s.insts.length : ℤ) - 2 := by
        intro m hm0 hm2 hfm
        rcases hfm with ⟨h1, h2⟩ | ⟨-, hb2⟩ | ⟨⟨hcm, -⟩, -⟩
        · exfalso
          rw [← hinsti] at h2
          have : (instN s (m + 1)).t ≤ (instN s (i : ℤ)).t :=
            instN_le hs (by omega) (by omega) (by omega)
          linarith
        · exfalso
          rw [← hinsti] at hb2
          have : m = (i : ℤ) :=
            instN_inj hs hm0 (by omega) (by omega) (by omega) hb2
          omega
        · exact hcm
      have hfind : tsequence_find_timestamp s (s.insts.getD i default).t =
          (s.insts.length : ℤ) - 2 := by
        rw [tsequence_find_timestamp]
        exact findLoop_eq_of_found s _ hs _ hfound huniq
          ((s.insts.length : ℤ) - 1).toNat 0 ((s.insts.length : ℤ) - 2)
          (by omega) (by omega) (by omega) (by omega) (by omega)
      rw [hfind]
      simp only [tsequence_value_at_timestamp1]
      by_cases hv : (instN s ((s.insts.length : ℤ) - 2)).value =
          (instN s (((s.insts.length : ℤ) - 2) + 1)).value
      · rw [if_pos (Or.inl hv), hv, hinst2]
      · have hne12 : (instN s ((s.insts.length : ℤ) - 2)).t ≠
            (s.insts.getD i default).t := by
          rw [← hinsti]
          exact ne_of_lt (instN_lt hs (by omega) (by omega) (by omega))
        rw [if_neg, if_pos (by rw [hinst2]), hinst2]
        rintro (h | h | ⟨-, h⟩)
        · exact hv h
        · exact hne12 h
        · rw [hinst2] at h
          exact lt_irrefl _ h

/-- Witness for C4: the middle instant of a concrete linear sequence. -/
theorem C4_value_at_stored_instant_witness :
    (⟨[⟨1, 0⟩, ⟨5, 4⟩, ⟨2, 9⟩], true, true, true⟩ : TSequence).Valid ∧
      (1 : ℕ) <
        (⟨[⟨1, 0⟩, ⟨5, 4⟩, ⟨2, 9⟩], true, true, true⟩ :
          TSequence).insts.length ∧
      tsequence_value_at_timestamp
          ⟨[⟨1, 0⟩, ⟨5, 4⟩, ⟨2, 9⟩], true, true, true⟩
          ((([⟨1, 0⟩, ⟨5, 4⟩, ⟨2, 9⟩] : List TInstant).getD 1 default).t) =
        some ((([⟨1, 0⟩, ⟨5, 4⟩, ⟨2, 9⟩] : List TInstant).getD 1
          default).value) :=
  ⟨by decide, by decide,
   C4_value_at_stored_instant ⟨[⟨1, 0⟩, ⟨5, 4⟩, ⟨2, 9⟩], true, true, true⟩
     (by decide) 1 (by decide) (by decide) (by decide)⟩

/-!  ### Restriction to a value (tsequence.c:2588-2880)  -/

/-- Embeds `tlinearseq_intersection_value` (src/src/tsequence.c:139-161) for
the scalar base kind: no crossing when the value equals an endpoint value,
otherwise the numeric segment/value intersection, returning the projected
value at the (truncated) crossing timestamp together with that timestamp. -/
def tlinearseq_intersection_value (inst1 inst2 : TInstant) (value : ℚ) :
    Option (ℚ × ℤ) :=
  if value = inst1.value ∨ value = inst2.value then none
  else
    match tnumberseq_intersection_value inst1 inst2 value with
    | none => none
    | some t => some (tsequence_value_at_timestamp1 inst1 inst2 true t, t)

/-- Modelled from the spec: `temporal_bbox_restrict_value` of the external
bounding-box module — the cached numeric box contains the value exactly when
it lies between the value extrema of the run (§3: the cached box is never
stale). -/
def bboxRestrictValue (s : TSequence) (value : ℚ) : Prop :=
  tsequence_vmin s ≤ value ∧ value ≤ tsequence_vmax s

instance (s : TSequence) (value : ℚ) :
    Decidable (bboxRestrictValue s value) :=
  inferInstanceAs (Decidable (_ ∧ _))

/-- Embeds `tsequence_at_value1` (src/src/tsequence.c:2601-2673): restrict
one segment to the base value.  `some []` models the C `NULL` result (the
segment contributes nothing), `some [q]` a contributed sequence, and `none`
a `ValidationError` raised by `tsequence_make` (which aborts the query). -/
def tsequence_at_value1 (inst1 inst2 : TInstant)
    (linear lower_inc upper_inc : Bool) (value : ℚ) :
    Option (List TSequence) :=
  if inst1.value = inst2.value then
    if inst1.value ≠ value then some []
    else
      (tsequence_make [inst1, inst2] lower_inc upper_inc linear false).map
        fun q => [q]
  else if linear = false then
    if inst1.value = value then
      (tsequence_make [inst1, ⟨inst1.value, inst2.t⟩] lower_inc false linear
        false).map fun q => [q]
    else if upper_inc = true ∧ value = inst2.value then
      (tsequence_make [inst2] true true linear false).map fun q => [q]
    else some []
  else
    if inst1.value = value then
      if lower_inc = false then some []
      else (tsequence_make [inst1] true true linear false).map fun q => [q]
    else if inst2.value = value then
      if upper_inc = false then some []
      else (tsequence_make [inst2] true true linear false).map fun q => [q]
    else
      match tlinearseq_intersection_value inst1 inst2 value with
      | none => some []
      | some (projvalue, t) =>
        (tsequence_make [⟨projvalue, t⟩] true true linear false).map
          fun q => [q]

/-- The segment loop of `tsequence_at_value` (src/src/tsequence.c:2704-2720):
walk consecutive segments, only the last honouring the sequence's upper
bound, interior lower bounds inclusive. -/
def atLoop (linear : Bool) (value : ℚ) (uiSeq : Bool) :
    TInstant → Bool → List TInstant → Option (List TSequence)
  | _, _, [] => some []
  | inst1, li, inst2 :: rest =>
    match tsequence_at_value1 inst1 inst2 linear li
        (if rest = [] then uiSeq else false) value with
    | none => none
    | some pieces =>
      match atLoop linear value uiSeq inst2 true rest with
      | none => none
      | some more => some (pieces ++ more)

/-- Embeds `tsequence_at_value` (src/src/tsequence.c:2687-2721):
instantaneous shortcut, bounding-box rejection, then the segment loop. -/
def tsequence_at_value (s : TSequence) (value : ℚ) :
    Option (List TSequence) :=
  if s.insts.length = 1 then
    if (s.insts.headD default).value ≠ value then some []
    else some [s]
  else if ¬ bboxRestrictValue s value then some []
  else
    match s.insts with
    | [] => some []
    | inst1 :: rest => atLoop s.linear value s.upper_inc inst1 s.lower_inc
        rest

/-- Embeds `tlinearseq_minus_value1` (src/src/tsequence.c:2734-2798):
restrict one linear segment to the complement of the base value; a crossing
splits the segment in two around the crossing timestamp. -/
def tlinearseq_minus_value1 (inst1 inst2 : TInstant)
    (lower_inc upper_inc : Bool) (value : ℚ) :
    Option (List TSequence) :=
  if inst1.value = inst2.value then
    if inst1.value = value then some []
    else
      (tsequence_make [inst1, inst2] lower_inc upper_inc true false).map
        fun q => [q]
  else if inst1.value = value then
    (tsequence_make [inst1, inst2] false upper_inc true false).map
      fun q => [q]
  else if inst2.value = value then
    (tsequence_make [inst1, inst2] lower_inc false true false).map
      fun q => [q]
  else
    match tlinearseq_intersection_value inst1 inst2 value with
    | none =>
      (tsequence_make [inst1, inst2] lower_inc upper_inc true false).map
        fun q => [q]
    | some (projvalue, t) =>
      match tsequence_make [inst1, ⟨projvalue, t⟩] lower_inc false true
          false,
        tsequence_make [⟨projvalue, t⟩, inst2] false upper_inc true false
        with
      | some a, some b => some [a, b]
      | _, _ => none

/-- The segment loop of the linear branch of `tsequence_minus_value`
(src/src/tsequence.c:2863-2877). -/
def minusLinLoop (value : ℚ) (uiSeq : Bool) :
    TInstant → Bool → List TInstant → Option (List TSequence)
  | _, _, [] => some []
  | inst1, li, inst2 :: rest =>
    match tlinearseq_minus_value1 inst1 inst2 li
        (if rest = [] then uiSeq else false) value with
    | none => none
    | some pieces =>
      match minusLinLoop value uiSeq inst2 true rest with
      | none => none
      | some more => some (pieces ++ more)

/-- The stepwise branch of `tsequence_minus_value`
(src/src/tsequence.c:2832-2862): accumulate maximal runs of instants whose
value differs from the target; a matching instant closes the pending run
with the previous value carried to its timestamp under an exclusive upper
bound. -/
def minusStepLoop (value : ℚ) (uiSeq : Bool) :
    List TInstant → List TInstant → Bool → Option (List TSequence)
  | [], run, li =>
    if 0 < run.length then
      (tsequence_make run li uiSeq false false).map fun q => [q]
    else some []
  | inst :: rest, run, li =>
    if inst.value = value then
      if 0 < run.length then
        match tsequence_make
            (run ++ [⟨(run.getLastD default).value, inst.t⟩]) li false false
            false with
        | none => none
        | some q =>
          match minusStepLoop value uiSeq rest [] true with
          | none => none
          | some more => some (q :: more)
      else minusStepLoop value uiSeq rest [] true
    else minusStepLoop value uiSeq rest (run ++ [inst]) li

/-- Embeds `tsequence_minus_value` (src/src/tsequence.c:2810-2880):
instantaneous shortcut, bounding-box shortcut (the whole sequence survives),
then the stepwise run loop or the linear segment loop. -/
def tsequence_minus_value (s : TSequence) (value : ℚ) :
    Option (List TSequence) :=
  if s.insts.length = 1 then
    if (s.insts.headD default).value = value then some []
    else some [s]
  else if ¬ bboxRestrictValue s value then some [s]
  else if s.linear = false then
    minusStepLoop value s.upper_inc s.insts [] s.lower_inc
  else
    match s.insts with
    | [] => some []
    | inst1 :: rest => minusLinLoop value s.upper_inc inst1 s.lower_inc rest

/-!  Coverage of results in time.  -/

/-- The set of timestamps a sequence covers: its period. -/
def covers (s : TSequence) (t : ℤ) : Prop :=
  containsPeriodT s.lowerT s.upperT s.lower_inc s.upper_inc t

instance (s : TSequence) (t : ℤ) : Decidable (covers s t) :=
  inferInstanceAs (Decidable (containsPeriodT _ _ _ _ _))

/-- A timestamp covered by some sequence of the result set. -/
def coversList (L : List TSequence) (t : ℤ) : Prop := ∃ q ∈ L, covers q t

instance (L : List TSequence) (t : ℤ) : Decidable (coversList L t) :=
  inferInstanceAs (Decidable (∃ q ∈ L, covers q t))

/-- Time span of an instant fragment under the given bound flags. -/
def listCovers (l : List TInstant) (li ui : Bool) (t : ℤ) : Prop :=
  l ≠ [] ∧ containsPeriodT (l.headD default).t (l.getLastD default).t li ui t

/-- The value a stepwise run holds at a timestamp: the value of the last
instant at or before it (the first instant's value before the second). -/
def heldList : List TInstant → ℤ → ℚ
  | [], _ => 0
  | [a], _ => a.value
  | a :: b :: r, t => if t < b.t then a.value else heldList (b :: r) t

/-!  Helper lemmas about `tsequence_make` on small runs and about
coverage.  -/

lemma make_pair_eq (a b : TInstant) (li ui lin : Bool) :
    tsequence_make [a, b] li ui lin false =
      if a.t < b.t ∧ (lin = true ∨ ui = true ∨ a.value = b.value) then
        some ⟨[a, b], li, ui, lin⟩
      else none := by
  rw [tsequence_make]
  simp only [List.isEmpty_cons, validTimestamps, Bool.and_eq_true,
    decide_eq_true_eq, List.length_cons, List.length_nil]
  split_ifs with h1 h2 h3 h4 h5 <;> first
    | rfl
    | (exfalso; simp_all [validTimestamps]; try omega)
    | (simp_all [validTimestamps]; try tauto)

lemma make_single_eq (a : TInstant) (lin : Bool) :
    tsequence_make [a] true true lin false = some ⟨[a], true, true, lin⟩ :=
  by
  rw [tsequence_make]
  simp [validTimestamps]

lemma coversList_nil (t : ℤ) : coversList [] t ↔ False := by
  simp [coversList]

lemma coversList_cons (q : TSequence) (L : List TSequence) (t : ℤ) :
    coversList (q :: L) t ↔ covers q t ∨ coversList L t := by
  simp [coversList]

lemma coversList_append (L1 L2 : List TSequence) (t : ℤ) :
    coversList (L1 ++ L2) t ↔ coversList L1 t ∨ coversList L2 t := by
  simp [coversList, or_and_right, exists_or]

lemma coversList_single (q : TSequence) (t : ℤ) :
    coversList [q] t ↔ covers q t := by
  simp [coversList]

lemma covers_pair (a b : TInstant) (li ui lin : Bool) (t : ℤ) :
    covers ⟨[a, b], li, ui, lin⟩ t ↔
      containsPeriodT a.t b.t li ui t := Iff.rfl

lemma covers_one (a : TInstant) (li ui lin : Bool) (t : ℤ) :
    covers ⟨[a], li, ui, lin⟩ t ↔ containsPeriodT a.t a.t li ui t := Iff.rfl

lemma covers_single_closed (a : TInstant) (lin : Bool) (t : ℤ) :
    covers ⟨[a], true, true, lin⟩ t ↔ t = a.t := by
  rw [covers_one]
  unfold containsPeriodT
  constructor
  · rintro ⟨h1 | ⟨-, h1⟩, h2 | ⟨-, h2⟩⟩ <;> omega
  · rintro rfl
    exact ⟨Or.inr ⟨rfl, rfl⟩, Or.inr ⟨rfl, rfl⟩⟩

lemma span_split (h1 hm hl : ℤ) (li ui : Bool) (t : ℤ)
    (ho1 : h1 < hm) (ho2 : hm ≤ hl) :
    containsPeriodT h1 hl li ui t ↔
      (containsPeriodT h1 hm li false t ∨ containsPeriodT hm hl true ui t) :=
  by
  unfold containsPeriodT
  cases li <;> cases ui <;> simp <;> omega

lemma containsPeriodT_left_lt {h1 hm : ℤ} {li : Bool} {t : ℤ}
    (h : containsPeriodT h1 hm li false t) : t < hm := by
  rcases h.2 with h2 | ⟨h2, -⟩
  · exact h2
  · exact absurd h2 (by simp)

lemma containsPeriodT_right_ge {hm hl : ℤ} {ui : Bool} {t : ℤ}
    (h : containsPeriodT hm hl true ui t) : hm ≤ t := by
  rcases h.1 with h2 | ⟨-, h2⟩ <;> omega

lemma getLastD_irrel (l : List TInstant) (d1 d2 : TInstant) (h : l ≠ []) :
    l.getLastD d1 = l.getLastD d2 := by
  cases l with
  | nil => exact absurd rfl h
  | cons a r =>
    rw [List.getLastD_cons, List.getLastD_cons]

lemma getLastD_concat (l : List TInstant) (x d : TInstant) :
    (l ++ [x]).getLastD d = x := by
  induction l generalizing d with
  | nil => rfl
  | cons a r ih =>
    rw [List.cons_append, List.getLastD_cons, ih]

lemma headD_append_left (l1 l2 : List TInstant) (d : TInstant)
    (h : l1 ≠ []) : (l1 ++ l2).headD d = l1.headD d := by
  cases l1 with
  | nil => exact absurd rfl h
  | cons a r => rfl

lemma validTimestamps_tail (a : TInstant) (l : List TInstant)
    (h : validTimestamps (a :: l) = true) : validTimestamps l = true := by
  cases l with
  | nil => rfl
  | cons b r =>
    simp only [validTimestamps, Bool.and_eq_true] at h
    exact h.2

lemma validTimestamps_suffix (l1 l2 : List TInstant)
    (h : validTimestamps (l1 ++ l2) = true) : validTimestamps l2 = true := by
  induction l1 with
  | nil => exact h
  | cons a r ih => exact ih (validTimestamps_tail _ _ h)

lemma validTimestamps_head_lt (a b : TInstant) (l : List TInstant)
    (h : validTimestamps (a :: b :: l) = true) : a.t < b.t := by
  simp only [validTimestamps, Bool.and_eq_true, decide_eq_true_eq] at h
  exact h.1

lemma lt_getLastD (a : TInstant) (l : List TInstant) (hl : l ≠ [])
    (h : validTimestamps (a :: l) = true) :
    a.t < (l.getLastD default).t := by
  induction l generalizing a with
  | nil => exact absurd rfl hl
  | cons b r ih =>
    rcases eq_or_ne r [] with hr | hr
    · subst hr
      simpa using validTimestamps_head_lt a b [] h
    · rw [List.getLastD_cons, getLastD_irrel r b default hr]
      exact lt_trans (validTimestamps_head_lt a b r h)
        (ih b hr (validTimestamps_tail a (b :: r) h))

lemma le_getLastD (a : TInstant) (l : List TInstant)
    (h : validTimestamps (a :: l) = true) :
    a.t ≤ ((a :: l).getLastD default).t := by
  rcases eq_or_ne l [] with hl | hl
  · subst hl; simp
  · rw [List.getLastD_cons, getLastD_irrel l a default hl]
    exact le_of_lt (lt_getLastD a l hl h)

lemma lin_seg_partition (inst1 inst2 : TInstant) (li u : Bool) (v : ℚ)
    (hst : inst1.t < inst2.t) (A M : List TSequence)
    (hA : tsequence_at_value1 inst1 inst2 true li u v = some A)
    (hM : tlinearseq_minus_value1 inst1 inst2 li u v = some M) (t : ℤ) :
    ((coversList A t ∨ coversList M t) ↔
      containsPeriodT inst1.t inst2.t li u t) ∧
    ¬(coversList A t ∧ coversList M t) := by
  rw [tsequence_at_value1] at hA
  rw [tlinearseq_minus_value1] at hM
  by_cases h12 : inst1.value = inst2.value
  · rw [if_pos h12] at hA hM
    by_cases hv : inst1.value = v
    · rw [if_neg (not_not_intro hv), make_pair_eq,
        if_pos ⟨hst, Or.inl rfl⟩] at hA
      rw [if_pos hv] at hM
      simp only [Option.map_some', Option.some_inj] at hA hM
      subst hA
      subst hM
      simp only [coversList_single, coversList_nil, covers_pair]
      tauto
    · rw [if_pos hv] at hA
      rw [if_neg hv, make_pair_eq, if_pos ⟨hst, Or.inl rfl⟩] at hM
      simp only [Option.map_some', Option.some_inj] at hA hM
      subst hA
      subst hM
      simp only [coversList_single, coversList_nil, covers_pair]
      tauto
  · rw [if_neg h12, if_neg (by decide : ¬(true = false))] at hA
    rw [if_neg h12] at hM
    by_cases hv1 : inst1.value = v
    · rw [if_pos hv1] at hA
      rw [if_pos hv1, make_pair_eq, if_pos ⟨hst, Or.inl rfl⟩] at hM
      simp only [Option.map_some', Option.some_inj] at hM
      subst hM
      by_cases hli : li = false
      · rw [if_pos hli] at hA
        simp only [Option.some_inj] at hA
        subst hA
        subst hli
        simp only [coversList_single, coversList_nil, covers_pair]
        unfold containsPeriodT
        cases u <;> simp <;> omega
      · rw [if_neg hli, make_single_eq] at hA
        simp only [Option.map_some', Option.some_inj] at hA
        subst hA
        have hli' : li = true := by
          cases li
          · exact absurd rfl hli
          · rfl
        subst hli'
        simp only [coversList_single, coversList_nil, covers_pair,
          covers_single_closed]
        unfold containsPeriodT
        cases u <;> simp <;> omega
    · rw [if_neg hv1] at hA
      rw [if_neg hv1] at hM
      by_cases hv2 : inst2.value = v
      · rw [if_pos hv2] at hA
        rw [if_pos hv2, make_pair_eq, if_pos ⟨hst, Or.inl rfl⟩] at hM
        simp only [Option.map_some', Option.some_inj] at hM
        subst hM
        by_cases hui : u = false
        · rw [if_pos hui] at hA
          simp only [Option.some_inj] at hA
          subst hA
          subst hui
          simp only [coversList_single, coversList_nil, covers_pair]
          unfold containsPeriodT
          cases li <;> simp <;> omega
        · rw [if_neg hui, make_single_eq] at hA
          simp only [Option.map_some', Option.some_inj] at hA
          subst hA
          have hui' : u = true := by
            cases u
            · exact absurd rfl hui
            · rfl
          subst hui'
          simp only [coversList_single, coversList_nil, covers_pair,
            covers_single_closed]
          unfold containsPeriodT
          cases li <;> simp <;> omega
      · rw [if_neg hv2] at hA
        rw [if_neg hv2] at hM
        cases hint : tlinearseq_intersection_value inst1 inst2 v with
        | none =>
          rw [hint] at hA hM
          dsimp only [] at hA hM
          rw [make_pair_eq, if_pos ⟨hst, Or.inl rfl⟩] at hM
          simp only [Option.some_inj, Option.map_some'] at hA hM
          subst hA
          subst hM
          simp only [coversList_single, coversList_nil, covers_pair]
          tauto
        | some pr =>
          obtain ⟨proj, tc⟩ := pr
          rw [hint] at hA hM
          dsimp only [] at hA hM
          rw [make_single_eq] at hA
          simp only [Option.map_some', Option.some_inj] at hA
          subst hA
          -- the two split pieces must both have been constructible
          rw [make_pair_eq, make_pair_eq] at hM
          by_cases hc1 : inst1.t < tc
          · rw [if_pos (by exact ⟨hc1, Or.inl rfl⟩)] at hM
            by_cases hc2 : tc < inst2.t
            · rw [if_pos (by exact ⟨hc2, Or.inl rfl⟩)] at hM
              simp only [Option.some_inj] at hM
              subst hM
              simp only [coversList_single, coversList_cons,
                coversList_nil, covers_pair, covers_single_closed]
              unfold containsPeriodT
              constructor
              · cases li <;> cases u <;> simp <;> omega
              · cases li <;> cases u <;> simp <;> omega
            · rw [if_neg (by tauto)] at hM
              exact absurd hM (by simp)
          · rw [if_neg (by tauto)] at hM
            exact absurd hM (by simp)

lemma lin_partition_loop (v : ℚ) (uiS : Bool) :
    ∀ (rest : List TInstant) (inst1 : TInstant) (li : Bool)
      (A M : List TSequence),
      validTimestamps (inst1 :: rest) = true →
      atLoop true v uiS inst1 li rest = some A →
      minusLinLoop v uiS inst1 li rest = some M →
      ∀ t, ((coversList A t ∨ coversList M t) ↔
          (rest ≠ [] ∧ listCovers (inst1 :: rest) li uiS t)) ∧
        ¬(coversList A t ∧ coversList M t) := by
  intro rest
  induction rest with
  | nil =>
    intro inst1 li A M hvt hA hM t
    rw [atLoop] at hA
    rw [minusLinLoop] at hM
    simp only [Option.some_inj] at hA hM
    subst hA
    subst hM
    simp [coversList_nil]
  | cons inst2 rest' ih =>
    intro inst1 li A M hvt hA hM t
    rw [atLoop] at hA
    rw [minusLinLoop] at hM
    cases hseg : tsequence_at_value1 inst1 inst2 true li
        (if rest' = [] then uiS else false) v with
    | none => rw [hseg] at hA; exact absurd hA (by simp)
    | some pieces =>
    rw [hseg] at hA
    cases hrec : atLoop true v uiS inst2 true rest' with
    | none => rw [hrec] at hA; exact absurd hA (by simp)
    | some A' =>
    rw [hrec] at hA
    cases hsegM : tlinearseq_minus_value1 inst1 inst2 li
        (if rest' = [] then uiS else false) v with
    | none => rw [hsegM] at hM; exact absurd hM (by simp)
    | some piecesM =>
    rw [hsegM] at hM
    cases hrecM : minusLinLoop v uiS inst2 true rest' with
    | none => rw [hrecM] at hM; exact absurd hM (by simp)
    | some M' =>
    rw [hrecM] at hM
    simp only [Option.some_inj] at hA hM
    subst hA
    subst hM
    have hst : inst1.t < inst2.t := validTimestamps_head_lt _ _ _ hvt
    have hvt' : validTimestamps (inst2 :: rest') = true :=
      validTimestamps_tail _ _ hvt
    have hseglem := lin_seg_partition inst1 inst2 li _ v hst pieces piecesM
      hseg hsegM t
    have hih := ih inst2 true A' M' hvt' hrec hrecM t
    rw [coversList_append, coversList_append]
    rcases eq_or_ne rest' [] with hre | hre
    · subst hre
      rw [if_pos rfl] at hseglem
      have hA0 : ¬ coversList A' t := fun hc =>
        by simpa using (hih.1.mp (Or.inl hc)).1
      have hM0 : ¬ coversList M' t := fun hc =>
        by simpa using (hih.1.mp (Or.inr hc)).1
      constructor
      · rw [show listCovers [inst1, inst2] li uiS t ↔
            containsPeriodT inst1.t inst2.t li uiS t from by
          simp [listCovers, List.getLastD_cons]]
        constructor
        · rintro ((h | h) | (h | h))
          · exact ⟨by simp, hseglem.1.mp (Or.inl h)⟩
          · exact absurd h hA0
          · exact ⟨by simp, hseglem.1.mp (Or.inr h)⟩
          · exact absurd h hM0
        · rintro ⟨-, h⟩
          rcases hseglem.1.mpr h with h' | h'
          · exact Or.inl (Or.inl h')
          · exact Or.inr (Or.inl h')
      · rintro ⟨hP | hP, hQ | hQ⟩
        · exact hseglem.2 ⟨hP, hQ⟩
        · exact hM0 hQ
        · exact hA0 hP
        · exact hA0 hP
    · rw [if_neg hre] at hseglem
      have hlast : inst2.t ≤ (((inst2 :: rest').getLastD default)).t :=
        le_getLastD inst2 rest' hvt'
      have hsplit := span_split inst1.t inst2.t
        ((inst2 :: rest').getLastD default).t li uiS t hst hlast
      have hihl : (coversList A' t ∨ coversList M' t) ↔
          containsPeriodT inst2.t ((inst2 :: rest').getLastD default).t
            true uiS t := by
        rw [hih.1]
        simp [listCovers, hre]
      have hlcov : listCovers (inst1 :: inst2 :: rest') li uiS t ↔
          containsPeriodT inst1.t ((inst2 :: rest').getLastD default).t
            li uiS t := by
        simp [listCovers, List.getLastD_cons]
      constructor
      · rw [show (inst2 :: rest') ≠ [] ↔ True from by simp, true_and,
          hlcov, hsplit]
        constructor
        · rintro ((h | h) | (h | h))
          · exact Or.inl (hseglem.1.mp (Or.inl h))
          · exact Or.inr (hihl.mp (Or.inl h))
          · exact Or.inl (hseglem.1.mp (Or.inr h))
          · exact Or.inr (hihl.mp (Or.inr h))
        · rintro (h | h)
          · rcases hseglem.1.mpr h with h' | h'
            · exact Or.inl (Or.inl h')
            · exact Or.inr (Or.inl h')
          · rcases hihl.mpr h with h' | h'
            · exact Or.inl (Or.inr h')
            · exact Or.inr (Or.inr h')
      · have hPlt : ∀ h : coversList pieces t, t < inst2.t := fun h =>
          containsPeriodT_left_lt (hseglem.1.mp (Or.inl h))
        have hPMlt : ∀ h : coversList piecesM t, t < inst2.t := fun h =>
          containsPeriodT_left_lt (hseglem.1.mp (Or.inr h))
        have hAge : ∀ h : coversList A' t, inst2.t ≤ t := fun h =>
          containsPeriodT_right_ge (hihl.mp (Or.inl h))
        have hMge : ∀ h : coversList M' t, inst2.t ≤ t := fun h =>
          containsPeriodT_right_ge (hihl.mp (Or.inr h))
        rintro ⟨hP | hP, hQ | hQ⟩
        · exact hseglem.2 ⟨hP, hQ⟩
        · exact absurd (hPlt hP) (not_lt.mpr (hMge hQ))
        · exact absurd (hPMlt hQ) (not_lt.mpr (hAge hP))
        · exact hih.2 ⟨hP, hQ⟩

lemma step_seg_at (inst1 inst2 : TInstant) (li u : Bool) (v : ℚ)
    (hst : inst1.t < inst2.t) (A : List TSequence)
    (hA : tsequence_at_value1 inst1 inst2 false li u v = some A) (t : ℤ) :
    coversList A t ↔
      containsPeriodT inst1.t inst2.t li u t ∧
        (if t < inst2.t then inst1.value else inst2.value) = v := by
  rw [tsequence_at_value1] at hA
  by_cases h12 : inst1.value = inst2.value
  · rw [if_pos h12] at hA
    by_cases hv : inst1.value = v
    · rw [if_neg (not_not_intro hv), make_pair_eq,
        if_pos ⟨hst, Or.inr (Or.inr h12)⟩] at hA
      simp only [Option.map_some', Option.some_inj] at hA
      subst hA
      simp only [coversList_single, covers_pair]
      constructor
      · intro h
        refine ⟨h, ?_⟩
        split_ifs
        · exact hv
        · rw [← h12]; exact hv
      · exact fun h => h.1
    · rw [if_pos hv] at hA
      simp only [Option.some_inj] at hA
      subst hA
      rw [coversList_nil]
      constructor
      · exact fun h => h.elim
      · rintro ⟨-, h⟩
        split_ifs at h
        · exact hv h
        · exact hv (h12 ▸ h)
  · rw [if_neg h12, if_pos rfl] at hA
    by_cases hv1 : inst1.value = v
    · rw [if_pos hv1, make_pair_eq,
        if_pos ⟨hst, Or.inr (Or.inr rfl)⟩] at hA
      simp only [Option.map_some', Option.some_inj] at hA
      subst hA
      simp only [coversList_single, covers_pair]
      by_cases hlt : t < inst2.t
      · simp only [if_pos hlt, hv1, and_true]
        unfold containsPeriodT
        cases li <;> cases u <;> simp <;> omega
      · simp only [if_neg hlt]
        have hv2ne : ¬ inst2.value = v := fun hc => h12 (hv1.trans hc.symm)
        simp only [hv2ne, and_false, iff_false]
        intro hc
        exact hlt (containsPeriodT_left_lt hc)
    · by_cases hv2 : u = true ∧ v = inst2.value
      · rw [if_neg hv1, if_pos hv2, make_single_eq] at hA
        simp only [Option.map_some', Option.some_inj] at hA
        subst hA
        simp only [coversList_single, covers_single_closed]
        constructor
        · rintro rfl
          refine ⟨⟨Or.inl hst, Or.inr ⟨hv2.1, rfl⟩⟩, ?_⟩
          rw [if_neg (lt_irrefl _)]
          exact hv2.2.symm
        · rintro ⟨hc, hheld⟩
          by_cases hlt : t < inst2.t
          · rw [if_pos hlt] at hheld
            exact absurd hheld hv1
          · rcases hc.2 with h2 | ⟨-, h2⟩ <;> omega
      · rw [if_neg hv1, if_neg hv2] at hA
        simp only [Option.some_inj] at hA
        subst hA
        rw [coversList_nil, false_iff]
        rintro ⟨hc, hheld⟩
        by_cases hlt : t < inst2.t
        · rw [if_pos hlt] at hheld
          exact hv1 hheld
        · rw [if_neg hlt] at hheld
          rcases hc.2 with h2 | ⟨hu, h2⟩
          · omega
          · exact hv2 ⟨hu, hheld.symm⟩

lemma heldList_cons2 (a b : TInstant) (r : List TInstant) (t : ℤ) :
    heldList (a :: b :: r) t =
      if t < b.t then a.value else heldList (b :: r) t := rfl

lemma heldList_mem (l : List TInstant) (t : ℤ) (h : l ≠ []) :
    ∃ x ∈ l, heldList l t = x.value := by
  induction l with
  | nil => exact absurd rfl h
  | cons a r ih =>
    cases r with
    | nil => exact ⟨a, by simp, rfl⟩
    | cons b r' =>
      rw [heldList_cons2]
      split_ifs
      · exact ⟨a, by simp, rfl⟩
      · obtain ⟨x, hx, he⟩ := ih (by simp)
        exact ⟨x, by simp [List.mem_cons] at hx ⊢; tauto, he⟩

lemma step_at_loop (v : ℚ) (uiS : Bool) :
    ∀ (rest : List TInstant) (inst1 : TInstant) (li : Bool)
      (A : List TSequence),
      validTimestamps (inst1 :: rest) = true →
      atLoop false v uiS inst1 li rest = some A →
      ∀ t, coversList A t ↔
        (rest ≠ [] ∧ listCovers (inst1 :: rest) li uiS t ∧
          heldList (inst1 :: rest) t = v) := by
  intro rest
  induction rest with
  | nil =>
    intro inst1 li A hvt hA t
    rw [atLoop] at hA
    simp only [Option.some_inj] at hA
    subst hA
    simp [coversList_nil]
  | cons inst2 rest' ih =>
    intro inst1 li A hvt hA t
    rw [atLoop] at hA
    cases hseg : tsequence_at_value1 inst1 inst2 false li
        (if rest' = [] then uiS else false) v with
    | none => rw [hseg] at hA; exact absurd hA (by simp)
    | some pieces =>
    rw [hseg] at hA
    cases hrec : atLoop false v uiS inst2 true rest' with
    | none => rw [hrec] at hA; exact absurd hA (by simp)
    | some A' =>
    rw [hrec] at hA
    simp only [Option.some_inj] at hA
    subst hA
    have hst : inst1.t < inst2.t := validTimestamps_head_lt _ _ _ hvt
    have hvt' : validTimestamps (inst2 :: rest') = true :=
      validTimestamps_tail _ _ hvt
    have hseglem := step_seg_at inst1 inst2 li _ v hst pieces hseg t
    have hih := ih inst2 true A' hvt' hrec t
    rw [coversList_append]
    rcases eq_or_ne rest' [] with hre | hre
    · subst hre
      rw [if_pos rfl] at hseglem
      have hA0 : ¬ coversList A' t := fun hc => by
        simpa using (hih.mp hc).1
      rw [show listCovers [inst1, inst2] li uiS t ↔
          containsPeriodT inst1.t inst2.t li uiS t from by
        simp [listCovers, List.getLastD_cons]]
      rw [heldList_cons2]
      constructor
      · rintro (h | h)
        · obtain ⟨h1, h2⟩ := hseglem.mp h
          exact ⟨by simp, h1, by simpa [heldList] using h2⟩
        · exact absurd h hA0
      · rintro ⟨-, h1, h2⟩
        exact Or.inl (hseglem.mpr ⟨h1, by simpa [heldList] using h2⟩)
    · rw [if_neg hre] at hseglem
      have hlast : inst2.t ≤ (((inst2 :: rest').getLastD default)).t :=
        le_getLastD inst2 rest' hvt'
      have hsplit := span_split inst1.t inst2.t
        ((inst2 :: rest').getLastD default).t li uiS t hst hlast
      have hihl : coversList A' t ↔
          (containsPeriodT inst2.t ((inst2 :: rest').getLastD default).t
            true uiS t ∧ heldList (inst2 :: rest') t = v) := by
        rw [hih]
        simp [listCovers, hre]
      have hlcov : listCovers (inst1 :: inst2 :: rest') li uiS t ↔
          containsPeriodT inst1.t ((inst2 :: rest').getLastD default).t
            li uiS t := by
        simp [listCovers, List.getLastD_cons]
      rw [show (inst2 :: rest') ≠ [] ↔ True from by simp, true_and, hlcov,
        heldList_cons2]
      constructor
      · rintro (h | h)
        · obtain ⟨h1, h2⟩ := hseglem.mp h
          have hlt : t < inst2.t := containsPeriodT_left_lt h1
          rw [if_pos hlt] at h2
          exact ⟨hsplit.mpr (Or.inl h1), by rw [if_pos hlt]; exact h2⟩
        · obtain ⟨h1, h2⟩ := hihl.mp h
          have hge : inst2.t ≤ t := containsPeriodT_right_ge h1
          exact ⟨hsplit.mpr (Or.inr h1),
            by rw [if_neg (not_lt.mpr hge)]; exact h2⟩
      · rintro ⟨h1, h2⟩
        rcases hsplit.mp h1 with h' | h'
        · have hlt : t < inst2.t := containsPeriodT_left_lt h'
          rw [if_pos hlt] at h2
          exact Or.inl (hseglem.mpr ⟨h', by rw [if_pos hlt]; exact h2⟩)
        · have hge : inst2.t ≤ t := containsPeriodT_right_ge h'
          rw [if_neg (not_lt.mpr hge)] at h2
          exact Or.inr (hihl.mpr ⟨h', h2⟩)

lemma make_some_shape (l : List TInstant) (li ui lin : Bool)
    (q : TSequence) (h : tsequence_make l li ui lin false = some q) :
    q = ⟨l, li, ui, lin⟩ := by
  rw [tsequence_make] at h
  split_ifs at h with h0 h1 h2 h3 hnorm
  · exact absurd hnorm.1 (fun f => f)
  · simp only [Option.some_inj] at h
    exact h.symm

lemma covers_mk_iff_listCovers (l : List TInstant) (li ui lin : Bool)
    (t : ℤ) (h : l ≠ []) :
    covers ⟨l, li, ui, lin⟩ t ↔ listCovers l li ui t := by
  rw [listCovers]
  exact (and_iff_right h).symm

lemma getLastD_append (l1 l2 : List TInstant) (d : TInstant) (h : l2 ≠ []) :
    (l1 ++ l2).getLastD d = l2.getLastD d := by
  induction l1 generalizing d with
  | nil => rfl
  | cons a r ih =>
    rw [List.cons_append, List.getLastD_cons, ih a,
      getLastD_irrel l2 a d h]

lemma heldList_append_lt (run : List TInstant) (inst : TInstant)
    (rest : List TInstant) (t : ℤ) (hr : run ≠ []) (ht : t < inst.t) :
    heldList (run ++ inst :: rest) t = heldList run t := by
  induction run with
  | nil => exact absurd rfl hr
  | cons a r ih =>
    cases r with
    | nil =>
      rw [List.cons_append, List.nil_append, heldList_cons2, if_pos ht]
      rfl
    | cons b r2 =>
      rw [List.cons_append, List.cons_append, heldList_cons2,
        ← List.cons_append, ih (by simp), heldList_cons2]

lemma heldList_append_ge (run : List TInstant) (inst : TInstant)
    (rest : List TInstant) (t : ℤ) (hlt : ∀ x ∈ run, x.t < inst.t)
    (ht : inst.t ≤ t) :
    heldList (run ++ inst :: rest) t = heldList (inst :: rest) t := by
  induction run with
  | nil => rfl
  | cons a r ih =>
    cases r with
    | nil =>
      rw [List.cons_append, List.nil_append, heldList_cons2,
        if_neg (not_lt.mpr ht)]
    | cons b r2 =>
      rw [List.cons_append, List.cons_append, heldList_cons2,
        if_neg (not_lt.mpr (le_of_lt (lt_of_lt_of_le
          (hlt b (by simp)) ht))), ← List.cons_append]
      exact ih fun x hx => hlt x (by simp [List.mem_cons] at hx ⊢; tauto)

lemma validTimestamps_before (l1 : List TInstant) (a : TInstant)
    (l2 : List TInstant) (h : validTimestamps (l1 ++ a :: l2) = true) :
    ∀ x ∈ l1, x.t < a.t := by
  have hp : (l1 ++ a :: l2).Pairwise (fun x y => x.t < y.t) :=
    List.chain'_iff_pairwise.mp ((validTimestamps_iff_chain _).mp h)
  rw [List.pairwise_append] at hp
  exact fun x hx => hp.2.2 x hx a (by simp)

lemma headD_mem (l : List TInstant) (d : TInstant) (h : l ≠ []) :
    l.headD d ∈ l := by
  cases l with
  | nil => exact absurd rfl h
  | cons a r => exact List.mem_cons_self a r

lemma getLastD_nil_eq (d : TInstant) : ([] : List TInstant).getLastD d = d :=
  rfl

lemma step_minus_loop (v : ℚ) (uiS : Bool) :
    ∀ (rest run : List TInstant) (li : Bool) (M : List TSequence),
      validTimestamps (run ++ rest) = true →
      (∀ x ∈ run, x.value ≠ v) →
      minusStepLoop v uiS rest run li = some M →
      ∀ t, coversList M t ↔
        (listCovers (run ++ rest) li uiS t ∧
          heldList (run ++ rest) t ≠ v) := by
  intro rest
  induction rest with
  | nil =>
    intro run li M hvt hrv hM t
    rw [minusStepLoop] at hM
    rcases eq_or_ne run [] with hr | hr
    · subst hr
      rw [if_neg (by simp)] at hM
      simp only [Option.some_inj] at hM
      subst hM
      simp [coversList_nil, listCovers]
    · have hlen : 0 < run.length := List.length_pos.mpr hr
      rw [if_pos hlen] at hM
      cases hmk : tsequence_make run li uiS false false with
      | none => rw [hmk] at hM; exact absurd hM (by simp)
      | some q =>
        rw [hmk] at hM
        simp only [Option.map_some', Option.some_inj] at hM
        subst hM
        obtain rfl := make_some_shape _ _ _ _ _ hmk
        rw [coversList_single, List.append_nil,
          covers_mk_iff_listCovers _ _ _ _ _ hr]
        have hheld : heldList run t ≠ v := by
          obtain ⟨x, hx, he⟩ := heldList_mem run t hr
          rw [he]; exact hrv x hx
        exact (and_iff_left hheld).symm
  | cons inst rest2 ih =>
    intro run li M hvt hrv hM t
    rw [minusStepLoop] at hM
    by_cases hmatch : inst.value = v
    swap
    · rw [if_neg hmatch] at hM
      have hvt' : validTimestamps ((run ++ [inst]) ++ rest2) = true := by
        rw [List.append_assoc, List.singleton_append]; exact hvt
      have hrv' : ∀ x ∈ run ++ [inst], x.value ≠ v := by
        intro x hx
        rcases List.mem_append.mp hx with h | h
        · exact hrv x h
        · simp only [List.mem_singleton] at h; subst h; exact hmatch
      have hres := ih (run ++ [inst]) li M hvt' hrv' hM t
      rw [List.append_assoc, List.singleton_append] at hres
      exact hres
    · rw [if_pos hmatch] at hM
      have hrunlt : ∀ x ∈ run, x.t < inst.t :=
        validTimestamps_before run inst rest2 hvt
      have hvtrest : validTimestamps (inst :: rest2) = true :=
        validTimestamps_suffix run _ hvt
      have hvtrest2 : validTimestamps rest2 = true :=
        validTimestamps_tail inst rest2 hvtrest
      by_cases hlen : 0 < run.length
      · rw [if_pos hlen] at hM
        have hrne : run ≠ [] := List.length_pos.mp hlen
        cases hmk : tsequence_make
            (run ++ [⟨(run.getLastD default).value, inst.t⟩]) li false false
            false with
        | none => rw [hmk] at hM; exact absurd hM (by simp)
        | some q =>
        rw [hmk] at hM
        cases hrec : minusStepLoop v uiS rest2 [] true with
        | none => rw [hrec] at hM; exact absurd hM (by simp)
        | some M' =>
        rw [hrec] at hM
        simp only [Option.some_inj] at hM
        subst hM
        obtain rfl := make_some_shape _ _ _ _ _ hmk
        have hih := ih [] true M' (by simpa using hvtrest2) (by simp)
          hrec t
        simp only [List.nil_append] at hih
        have hcovq : covers
            ⟨run ++ [⟨(run.getLastD default).value, inst.t⟩], li, false,
              false⟩ t ↔
            containsPeriodT (run.headD default).t inst.t li false t := by
          rw [covers_mk_iff_listCovers _ _ _ _ _ (by simp), listCovers,
            headD_append_left run _ default hrne, getLastD_concat]
          simp
        have hhead_lt : (run.headD default).t < inst.t :=
          hrunlt _ (headD_mem run default hrne)
        have hwhole : listCovers (run ++ inst :: rest2) li uiS t ↔
            containsPeriodT (run.headD default).t
              ((inst :: rest2).getLastD default).t li uiS t := by
          rw [listCovers, headD_append_left _ _ _ hrne,
            getLastD_append _ _ _ (by simp)]
          simp
        have hinst_le_last : inst.t ≤ ((inst :: rest2).getLastD default).t :=
          le_getLastD inst rest2 hvtrest
        have hsplit := span_split (run.headD default).t inst.t
          ((inst :: rest2).getLastD default).t li uiS t hhead_lt
          hinst_le_last
        have hheldrun : heldList run t ≠ v := by
          obtain ⟨x, hx, he⟩ := heldList_mem run t hrne
          rw [he]; exact hrv x hx
        rw [coversList_cons, hcovq, hwhole, hsplit]
        cases rest2 with
        | nil =>
          have hM0 : ¬ coversList M' t := fun hc => by
            simpa [listCovers] using (hih.mp hc).1
          simp only [List.getLastD_cons, getLastD_nil_eq] at *
          constructor
          · rintro (h | h)
            · have hlt : t < inst.t := containsPeriodT_left_lt h
              refine ⟨Or.inl h, ?_⟩
              rw [heldList_append_lt run inst [] t hrne hlt]
              exact hheldrun
            · exact absurd h hM0
          · rintro ⟨h1 | h1, h2⟩
            · exact Or.inl h1
            · exfalso
              have hge : inst.t ≤ t := containsPeriodT_right_ge h1
              rw [heldList_append_ge run inst [] t hrunlt hge] at h2
              have ht : t = inst.t := by
                rcases h1.2 with h3 | ⟨-, h3⟩ <;> omega
              exact h2 (by simpa [heldList] using hmatch)
        | cons b r2 =>
          have hbt : inst.t < b.t := validTimestamps_head_lt inst b r2
            hvtrest
          have hL : ((inst :: b :: r2).getLastD default) =
              ((b :: r2).getLastD default) := by
            rw [List.getLastD_cons, getLastD_irrel _ inst default (by simp)]
          have hihl : coversList M' t ↔
              (containsPeriodT b.t ((b :: r2).getLastD default).t true uiS
                t ∧ heldList (b :: r2) t ≠ v) := by
            rw [hih]
            simp [listCovers]
          rw [hL]
          constructor
          · rintro (h | h)
            · have hlt : t < inst.t := containsPeriodT_left_lt h
              refine ⟨Or.inl h, ?_⟩
              rw [heldList_append_lt run inst (b :: r2) t hrne hlt]
              exact hheldrun
            · obtain ⟨h1, h2⟩ := hihl.mp h
              have hge : b.t ≤ t := containsPeriodT_right_ge h1
              refine ⟨Or.inr ⟨Or.inl (by omega), ?_⟩, ?_⟩
              · rw [← hL] at h1
                exact h1.2
              · rw [heldList_append_ge run inst (b :: r2) t hrunlt
                  (by omega), heldList_cons2, if_neg (not_lt.mpr hge)]
                exact h2
          · rintro ⟨h1 | h1, h2⟩
            · exact Or.inl h1
            · have hge : inst.t ≤ t := containsPeriodT_right_ge h1
              rw [heldList_append_ge run inst (b :: r2) t hrunlt hge,
                heldList_cons2] at h2
              by_cases htb : t < b.t
              · rw [if_pos htb] at h2
                exact absurd hmatch h2
              · rw [if_neg htb] at h2
                have hleft : b.t < t ∨ (true = true ∧ t = b.t) := by
                  rcases lt_or_eq_of_le (not_lt.mp htb) with hc | hc
                  · exact Or.inl hc
                  · exact Or.inr ⟨rfl, hc.symm⟩
                refine Or.inr (hihl.mpr ⟨⟨hleft, ?_⟩, h2⟩)
                rw [← hL]
                exact h1.2
      · rw [if_neg hlen] at hM
        have hrun0 : run = [] := by
          cases run with
          | nil => rfl
          | cons a r => exact absurd (by simp) hlen
        subst hrun0
        have hih := ih [] true M (by simpa using hvtrest2) (by simp) hM t
        simp only [List.nil_append] at hih ⊢
        cases rest2 with
        | nil =>
          have hM0 : ¬ coversList M t := fun hc => by
            simpa [listCovers] using (hih.mp hc).1
          rw [iff_false_intro hM0, false_iff]
          rintro ⟨h1, h2⟩
          rcases h1 with ⟨-, hc⟩
          have ht : t = inst.t := by
            rcases hc.1 with h3 | ⟨-, h3⟩ <;>
              rcases hc.2 with h4 | ⟨-, h4⟩ <;>
              simp only [List.getLastD_cons, getLastD_nil_eq,
                List.headD_cons] at h3 h4 <;>
              omega
          exact h2 (by simpa [heldList, ht] using hmatch)
        | cons b r2 =>
          have hbt : inst.t < b.t := validTimestamps_head_lt inst b r2
            hvtrest
          have hL : ((inst :: b :: r2).getLastD default) =
              ((b :: r2).getLastD default) := by
            rw [List.getLastD_cons, getLastD_irrel _ inst default (by simp)]
          have hihl : coversList M t ↔
              (containsPeriodT b.t ((b :: r2).getLastD default).t true uiS
                t ∧ heldList (b :: r2) t ≠ v) := by
            rw [hih]
            simp [listCovers]
          rw [hihl]
          have hwhole : listCovers (inst :: b :: r2) li uiS t ↔
              containsPeriodT inst.t ((b :: r2).getLastD default).t li uiS
                t := by
            rw [listCovers, hL]
            simp
          rw [hwhole]
          constructor
          · rintro ⟨h1, h2⟩
            have hge : b.t ≤ t := containsPeriodT_right_ge h1
            refine ⟨⟨Or.inl (by omega), h1.2⟩, ?_⟩
            rw [heldList_cons2, if_neg (not_lt.mpr hge)]
            exact h2
          · rintro ⟨h1, h2⟩
            rw [heldList_cons2] at h2
            by_cases htb : t < b.t
            · rw [if_pos htb] at h2
              exact absurd hmatch h2
            · rw [if_neg htb] at h2
              have hleft : b.t < t ∨ (true = true ∧ t = b.t) := by
                rcases lt_or_eq_of_le (not_lt.mp htb) with hc | hc
                · exact Or.inl hc
                · exact Or.inr ⟨rfl, hc.symm⟩
              exact ⟨⟨hleft, h1.2⟩, h2⟩

lemma covers_iff_listCovers (s : TSequence) (h : s.insts ≠ []) (t : ℤ) :
    covers s t ↔ listCovers s.insts s.lower_inc s.upper_inc t := by
  rw [covers, listCovers, TSequence.lowerT, TSequence.upperT]
  exact (and_iff_right h).symm

/-- C3 (counterexample): the partition law fails as stated because the
restriction can abort: on the valid linear sequence `(0@0, 100000@1)` the
minus-value restriction at value `50000` raises a `ValidationError` instead
of returning a result set — the crossing timestamp `0 + (long)(1 * 0.5)`
truncates onto the segment start, so the left split piece has
non-increasing timestamps and `tsequence_make` errors out. -/
theorem C3_counterexample :
    (⟨[⟨0, 0⟩, ⟨100000, 1⟩], true, true, true⟩ : TSequence).Valid ∧
      tsequence_minus_value ⟨[⟨0, 0⟩, ⟨100000, 1⟩], true, true, true⟩
        50000 = none := by
  constructor
  · decide
  · norm_num [tsequence_minus_value, minusLinLoop, tlinearseq_minus_value1,
      tlinearseq_intersection_value, tnumberseq_intersection_value,
      numValueFraction, EPSILON, ctrunc, bboxRestrictValue, tsequence_vmin,
      tsequence_vmax, tsequence_make, validTimestamps,
      tsequence_value_at_timestamp1, abs_of_nonneg, abs_of_nonpos,
      Int.floor_eq_zero_iff, Set.mem_Ico]

/-- C3 (amended): whenever neither restriction aborts with a
`ValidationError`, the at-value and minus-value result sets partition the
time span of the input sequence: together they cover exactly the period of
`s`, and no timestamp is covered by both. -/
theorem C3_at_minus_partition (s : TSequence) (v : ℚ) (hval : s.Valid)
    (A M : List TSequence)
    (hA : tsequence_at_value s v = some A)
    (hM : tsequence_minus_value s v = some M) (t : ℤ) :
    ((coversList A t ∨ coversList M t) ↔ covers s t) ∧
      ¬(coversList A t ∧ coversList M t) := by
  obtain ⟨hne, hts, -, -⟩ := valid_destruct hval
  rw [tsequence_at_value] at hA
  rw [tsequence_minus_value] at hM
  by_cases hlen1 : s.insts.length = 1
  · rw [if_pos hlen1] at hA hM
    by_cases hv : (s.insts.headD default).value = v
    · rw [if_neg (not_not_intro hv)] at hA
      rw [if_pos hv] at hM
      simp only [Option.some_inj] at hA hM
      subst hA; subst hM
      simp [coversList_single, coversList_nil]
    · rw [if_pos hv] at hA
      rw [if_neg hv] at hM
      simp only [Option.some_inj] at hA hM
      subst hA; subst hM
      simp [coversList_single, coversList_nil]
  · rw [if_neg hlen1] at hA hM
    by_cases hbb : bboxRestrictValue s v
    · rw [if_neg (not_not_intro hbb)] at hA hM
      obtain ⟨inst1, rest, hinsts⟩ : ∃ a r, s.insts = a :: r := by
        cases hI : s.insts with
        | nil => exact absurd hI hne
        | cons a r => exact ⟨a, r, rfl⟩
      have hrest : rest ≠ [] := by
        intro h
        rw [hinsts, h] at hlen1
        exact hlen1 rfl
      have hts' : validTimestamps (inst1 :: rest) = true := hinsts ▸ hts
      rw [hinsts] at hA
      dsimp only [] at hA
      rcases Bool.eq_false_or_eq_true s.linear with hlin | hlin
      · rw [if_neg (by simp [hlin]), hinsts] at hM
        dsimp only [] at hM
        rw [hlin] at hA
        have hlp := lin_partition_loop v s.upper_inc rest inst1 s.lower_inc
          A M hts' hA hM t
        refine ⟨?_, hlp.2⟩
        rw [hlp.1, covers_iff_listCovers s hne t, hinsts]
        exact and_iff_right hrest
      · rw [if_pos hlin, hinsts] at hM
        rw [hlin] at hA
        have hstepA := step_at_loop v s.upper_inc rest inst1 s.lower_inc A
          hts' hA t
        have hstepM := step_minus_loop v s.upper_inc (inst1 :: rest) []
          s.lower_inc M (by simpa using hts') (by simp) hM t
        simp only [List.nil_append] at hstepM
        constructor
        · rw [hstepA, hstepM, covers_iff_listCovers s hne t, hinsts]
          constructor
          · rintro (⟨-, h1, -⟩ | ⟨h1, -⟩) <;> exact h1
          · intro h1
            by_cases hv : heldList (inst1 :: rest) t = v
            · exact Or.inl ⟨hrest, h1, hv⟩
            · exact Or.inr ⟨h1, hv⟩
        · rw [hstepA, hstepM]
          rintro ⟨⟨-, -, h1⟩, -, h2⟩
          exact h2 h1
    · rw [if_pos hbb] at hA hM
      simp only [Option.some_inj] at hA hM
      subst hA; subst hM
      simp [coversList_single, coversList_nil]

/-- Witness for C3: a concrete stepwise sequence holding 1, 2, 1 at
timestamps 0, 5, 10, restricted at value 2, tested at timestamp 3. -/
theorem C3_at_minus_partition_witness :
    ((coversList [⟨[⟨2, 5⟩, ⟨2, 10⟩], true, false, false⟩] 3 ∨
        coversList [⟨[⟨1, 0⟩, ⟨1, 5⟩], true, false, false⟩,
          ⟨[⟨1, 10⟩], true, true, false⟩] 3) ↔
      covers ⟨[⟨1, 0⟩, ⟨2, 5⟩, ⟨1, 10⟩], true, true, false⟩ 3) ∧
      ¬(coversList [⟨[⟨2, 5⟩, ⟨2, 10⟩], true, false, false⟩] 3 ∧
        coversList [⟨[⟨1, 0⟩, ⟨1, 5⟩], true, false, false⟩,
          ⟨[⟨1, 10⟩], true, true, false⟩] 3) :=
  C3_at_minus_partition ⟨[⟨1, 0⟩, ⟨2, 5⟩, ⟨1, 10⟩], true, true, false⟩ 2
    (by decide) _ _ (by decide) (by decide) 3

/-!  ### Claim C5: synchronization  -/

/-- A time period with bound inclusivity flags (the `Period` struct of the
external period module). -/
structure Period where
  lower : ℤ
  upper : ℤ
  lower_inc : Bool
  upper_inc : Bool
deriving DecidableEq, Repr, Inhabited

/-- The bounding period of a sequence (its `period` field, maintained as the
span from the first to the last instant with the sequence's bounds). -/
def TSequence.period (s : TSequence) : Period :=
  ⟨s.lowerT, s.upperT, s.lower_inc, s.upper_inc⟩

/-- Modelled from the spec: `intersection_period_period_internal` lives in
the external period module; the intersection takes the later lower bound and
the earlier upper bound (combining inclusivity at ties), and is empty —
`NULL` in C — when the resulting bounds do not enclose any timestamp. -/
def period_intersection (p1 p2 : Period) : Option Period :=
  if max p1.lower p2.lower < min p1.upper p2.upper ∨
      (max p1.lower p2.lower = min p1.upper p2.upper ∧
        (if p1.lower < p2.lower then p2.lower_inc
          else if p2.lower < p1.lower then p1.lower_inc
          else p1.lower_inc && p2.lower_inc) = true ∧
        (if p1.upper < p2.upper then p1.upper_inc
          else if p2.upper < p1.upper then p2.upper_inc
          else p1.upper_inc && p2.upper_inc) = true) then
    some ⟨max p1.lower p2.lower, min p1.upper p2.upper,
      (if p1.lower < p2.lower then p2.lower_inc
        else if p2.lower < p1.lower then p1.lower_inc
        else p1.lower_inc && p2.lower_inc),
      (if p1.upper < p2.upper then p1.upper_inc
        else if p2.upper < p1.upper then p2.upper_inc
        else p1.upper_inc && p2.upper_inc)⟩
  else none

/-- Embeds `tsequence_at_timestamp` (src/src/tsequence.c:3580-3597):
bounding-period test (`none` models the C `NULL`), instantaneous shortcut,
otherwise interpolation on the segment located by the binary search. -/
def tsequence_at_timestamp (seq : TSequence) (t : ℤ) : Option TInstant :=
  if ¬ containsPeriodT seq.lowerT seq.upperT seq.lower_inc seq.upper_inc t
  then none
  else if seq.insts.length = 1 then some (seq.insts.headD default)
  else some ⟨tsequence_value_at_timestamp1
      (instN seq (tsequence_find_timestamp seq t))
      (instN seq (tsequence_find_timestamp seq t + 1)) seq.linear t, t⟩

/-- Embeds `tsequence_intersection` (src/src/tsequence.c:436-471) for the
scalar numeric base kind: dispatch on the interpolation of the two segments,
returning the two values taken at the crossing together with its
timestamp. -/
def tsequence_intersection (start1 end1 : TInstant) (linear1 : Bool)
    (start2 end2 : TInstant) (linear2 : Bool) : Option (ℚ × ℚ × ℤ) :=
  if linear1 = false then
    match tlinearseq_intersection_value start2 end2 start1.value with
    | none => none
    | some (inter2, t) => some (start1.value, inter2, t)
  else if linear2 = false then
    match tlinearseq_intersection_value start1 end1 start2.value with
    | none => none
    | some (inter1, t) => some (inter1, start2.value, t)
  else
    match tnumberseq_intersection start1 end1 start2 end2 with
    | none => none
    | some t => some (tsequence_value_at_timestamp1 start1 end1 true t,
        tsequence_value_at_timestamp1 start2 end2 true t, t)

/-- The index advance of one iteration of the merge loop
(src/src/tsequence.c:1655-1671): the first run's index advances when its
current timestamp is not the larger one. -/
def nexti (i : ℤ) (inst1 inst2 : TInstant) : ℤ :=
  if inst1.t ≤ inst2.t then i + 1 else i

/-- The second run's index advance: symmetric to `nexti`. -/
def nextj (j : ℤ) (inst1 inst2 : TInstant) : ℤ :=
  if inst2.t ≤ inst1.t then j + 1 else j

/-- The instant pair appended by one iteration of the merge loop
(src/src/tsequence.c:1655-1671): the run with the larger current timestamp
is interpolated at the other's timestamp; `none` models the C dereference
of the `NULL` returned by `tsequence_at_timestamp` when the timestamp lies
outside the other sequence's period. -/
def pairStep (seq1 seq2 : TSequence) (inst1 inst2 : TInstant) :
    Option (TInstant × TInstant) :=
  if inst1.t = inst2.t then some (inst1, inst2)
  else if inst1.t < inst2.t then
    (tsequence_at_timestamp seq2 inst1.t).map fun x => (inst1, x)
  else
    (tsequence_at_timestamp seq1 inst2.t).map fun x => (x, inst2)

/-- The merge loop of `synchronize_tsequence_tsequence`
(src/src/tsequence.c:1652-1691): walk both instant runs in merged timestamp
order, optionally inserting a crossing pair before each appended pair, and
stop when either run is exhausted or both current timestamps have passed the
intersection's upper bound. -/
def syncLoop (seq1 seq2 : TSequence) (crossings : Bool) (interUpper : ℤ)
    (i j : ℤ) (inst1 inst2 : TInstant) (acc1 acc2 : List TInstant) :
    Option (List TInstant × List TInstant) :=
  if hg : i < (seq1.insts.length : ℤ) ∧ j < (seq2.insts.length : ℤ) ∧
      (inst1.t ≤ interUpper ∨ inst2.t ≤ interUpper) then
    match pairStep seq1 seq2 inst1 inst2 with
    | none => none
    | some (a, b) =>
      match
        (if crossings = true ∧ (seq1.linear = true ∨ seq2.linear = true) ∧
            acc1 ≠ [] then
          tsequence_intersection (acc1.getLastD default) a seq1.linear
            (acc2.getLastD default) b seq2.linear
        else none) with
      | some (v1, v2, ct) =>
        if nexti i inst1 inst2 = (seq1.insts.length : ℤ) ∨
            nextj j inst1 inst2 = (seq2.insts.length : ℤ) then
          some (acc1 ++ [⟨v1, ct⟩, a], acc2 ++ [⟨v2, ct⟩, b])
        else
          syncLoop seq1 seq2 crossings interUpper (nexti i inst1 inst2)
            (nextj j inst1 inst2) (instN seq1 (nexti i inst1 inst2))
            (instN seq2 (nextj j inst1 inst2)) (acc1 ++ [⟨v1, ct⟩, a])
            (acc2 ++ [⟨v2, ct⟩, b])
      | none =>
        if nexti i inst1 inst2 = (seq1.insts.length : ℤ) ∨
            nextj j inst1 inst2 = (seq2.insts.length : ℤ) then
          some (acc1 ++ [a], acc2 ++ [b])
        else
          syncLoop seq1 seq2 crossings interUpper (nexti i inst1 inst2)
            (nextj j inst1 inst2) (instN seq1 (nexti i inst1 inst2))
            (instN seq2 (nextj j inst1 inst2)) (acc1 ++ [a]) (acc2 ++ [b])
  else some (acc1, acc2)
termination_by
  ((seq1.insts.length : ℤ) - i + ((seq2.insts.length : ℤ) - j)).toNat
decreasing_by
  all_goals
    simp only [nexti, nextj]
    split_ifs <;> omega

/-- The final adjustment of `synchronize_tsequence_tsequence`
(src/src/tsequence.c:1694-1712): with step interpolation and an exclusive
upper bound, the last value must repeat the second-to-last one. -/
def stepFixup (ui lin : Bool) (acc : List TInstant) : List TInstant :=
  if ui = false ∧ 1 < acc.length ∧ lin = false ∧
      (acc.getD (acc.length - 2) default).value ≠
        (acc.getLastD default).value then
    acc.dropLast ++ [⟨(acc.getD (acc.length - 2) default).value,
      (acc.getLastD default).t⟩]
  else acc

/-- The initial advance of `synchronize_tsequence_tsequence`
(src/src/tsequence.c:1633-1645): when one run starts before the
intersection, replace its first instant by the interpolated instant at the
intersection's lower bound and position that run's index there; `none`
models the C dereference of a `NULL` interpolation result. -/
def syncInit (seq1 seq2 : TSequence) (interLower : ℤ) :
    Option (ℤ × ℤ × TInstant × TInstant) :=
  if (instN seq1 0).t < interLower then
    (tsequence_at_timestamp seq1 interLower).map fun x =>
      (tsequence_find_timestamp seq1 interLower, (0 : ℤ), x, instN seq2 0)
  else if (instN seq2 0).t < interLower then
    (tsequence_at_timestamp seq2 interLower).map fun x =>
      ((0 : ℤ), tsequence_find_timestamp seq2 interLower, instN seq1 0, x)
  else some ((0 : ℤ), (0 : ℤ), instN seq1 0, instN seq2 0)

/-- Embeds `synchronize_tsequence_tsequence`
(src/src/tsequence.c:1600-1726): period-intersection test (`Except.ok none`
models the C `return false`), instantaneous-overlap shortcut, initial
advance to the intersection's lower bound, the merge loop, the step fixups,
and the two constructions; `Except.error ()` models a `ValidationError`
raised by `tsequence_make` or the dereference of a `NULL` instant. -/
def synchronize_tsequence_tsequence (seq1 seq2 : TSequence)
    (crossings : Bool) : Except Unit (Option (TSequence × TSequence)) :=
  match period_intersection seq1.period seq2.period with
  | none => Except.ok none
  | some inter =>
    if inter.lower = inter.upper then
      match tsequence_at_timestamp seq1 inter.lower,
          tsequence_at_timestamp seq2 inter.lower with
      | some i1, some i2 =>
        match tsequence_make [i1] true true seq1.linear false,
            tsequence_make [i2] true true seq2.linear false with
        | some s1, some s2 => Except.ok (some (s1, s2))
        | _, _ => Except.error ()
      | _, _ => Except.error ()
    else
      match syncInit seq1 seq2 inter.lower with
      | none => Except.error ()
      | some (i0, j0, a0, b0) =>
        match syncLoop seq1 seq2 crossings inter.upper i0 j0 a0 b0 [] [] with
        | none => Except.error ()
        | some (l1, l2) =>
          match tsequence_make (stepFixup inter.upper_inc seq1.linear l1)
              inter.lower_inc inter.upper_inc seq1.linear false,
            tsequence_make (stepFixup inter.upper_inc seq2.linear l2)
              inter.lower_inc inter.upper_inc seq2.linear false with
          | some s1, some s2 => Except.ok (some (s1, s2))
          | _, _ => Except.error ()

lemma at_timestamp_t (seq : TSequence) (t : ℤ) (inst : TInstant)
    (h : tsequence_at_timestamp seq t = some inst) : inst.t = t := by
  rw [tsequence_at_timestamp] at h
  split_ifs at h with h1 h2
  · obtain ⟨a, ha⟩ := List.length_eq_one.mp h2
    rw [TSequence.lowerT, TSequence.upperT, ha] at h1
    simp only [List.headD_cons, List.getLastD_cons, getLastD_nil_eq] at h1
    rw [ha] at h
    simp only [List.headD_cons, Option.some_inj] at h
    subst h
    rcases h1.1 with hl | ⟨-, hl⟩ <;> rcases h1.2 with hr | ⟨-, hr⟩ <;> omega
  · simp only [Option.some_inj] at h
    subst h
    rfl

lemma pairStep_t (seq1 seq2 : TSequence) (inst1 inst2 a b : TInstant)
    (h : pairStep seq1 seq2 inst1 inst2 = some (a, b)) : a.t = b.t := by
  rw [pairStep] at h
  split_ifs at h with h1 h2
  · simp only [Option.some_inj, Prod.mk.injEq] at h
    obtain ⟨ha, hb⟩ := h
    rw [← ha, ← hb]
    exact h1
  all_goals
    rcases hx : tsequence_at_timestamp _ _ with _ | x <;> rw [hx] at h
  · exact absurd h (by simp)
  · simp only [Option.map_some', Option.some_inj, Prod.mk.injEq] at h
    obtain ⟨ha, hb⟩ := h
    rw [← ha, ← hb]
    exact (at_timestamp_t _ _ _ hx).symm
  · exact absurd h (by simp)
  · simp only [Option.map_some', Option.some_inj, Prod.mk.injEq] at h
    obtain ⟨ha, hb⟩ := h
    rw [← ha, ← hb]
    exact at_timestamp_t _ _ _ hx

lemma stepFixup_map_t (ui lin : Bool) (acc : List TInstant) :
    (stepFixup ui lin acc).map TInstant.t = acc.map TInstant.t := by
  rw [stepFixup]
  split_ifs with h
  · obtain ⟨-, hlen, -, -⟩ := h
    have hne : acc ≠ [] := by
      intro he
      rw [he] at hlen
      simp at hlen
    have hgl : acc.getLastD default = acc.getLast hne := by
      conv_lhs => rw [← List.dropLast_append_getLast hne]
      exact getLastD_concat _ _ _
    conv_rhs => rw [← List.dropLast_append_getLast hne]
    rw [List.map_append, List.map_append, hgl]
    rfl
  · rfl

lemma syncLoop_map_t (seq1 seq2 : TSequence) (crossings : Bool)
    (interUpper : ℤ) :
    ∀ (n : ℕ) (i j : ℤ) (inst1 inst2 : TInstant)
      (acc1 acc2 r1 r2 : List TInstant),
      ((seq1.insts.length : ℤ) - i + ((seq2.insts.length : ℤ) - j)).toNat
        ≤ n →
      acc1.map TInstant.t = acc2.map TInstant.t →
      syncLoop seq1 seq2 crossings interUpper i j inst1 inst2 acc1 acc2 =
        some (r1, r2) →
      r1.map TInstant.t = r2.map TInstant.t := by
  intro n
  induction n with
  | zero =>
    intro i j inst1 inst2 acc1 acc2 r1 r2 hn hacc h
    rw [syncLoop, dif_neg] at h
    · simp only [Option.some_inj, Prod.mk.injEq] at h
      obtain ⟨rfl, rfl⟩ := h
      exact hacc
    · rintro ⟨hg1, hg2, -⟩
      omega
  | succ n ih =>
    intro i j inst1 inst2 acc1 acc2 r1 r2 hn hacc h
    rw [syncLoop] at h
    by_cases hg : i < (seq1.insts.length : ℤ) ∧
        j < (seq2.insts.length : ℤ) ∧
        (inst1.t ≤ interUpper ∨ inst2.t ≤ interUpper)
    · obtain ⟨hg1, hg2, -⟩ := id hg
      rw [dif_pos hg] at h
      have hnn : i + j < nexti i inst1 inst2 + nextj j inst1 inst2 ∧
          nexti i inst1 inst2 ≤ i + 1 ∧ nextj j inst1 inst2 ≤ j + 1 := by
        simp only [nexti, nextj]
        split_ifs <;> omega
      obtain ⟨hn1, hn2, hn3⟩ := hnn
      split at h
      · exact absurd h (by simp)
      · rename_i a b heq
        have hab := pairStep_t _ _ _ _ _ _ heq
        split at h
        · rename_i v1 v2 ct heq2
          split_ifs at h with hbrk
          · simp only [Option.some_inj, Prod.mk.injEq] at h
            obtain ⟨rfl, rfl⟩ := h
            simp [hacc, hab]
          · exact ih (nexti i inst1 inst2) (nextj j inst1 inst2) _ _ _ _
              r1 r2 (by omega) (by simp [hacc, hab]) h
        · split_ifs at h with hbrk
          · simp only [Option.some_inj, Prod.mk.injEq] at h
            obtain ⟨rfl, rfl⟩ := h
            simp [hacc, hab]
          · exact ih (nexti i inst1 inst2) (nextj j inst1 inst2) _ _ _ _
              r1 r2 (by omega) (by simp [hacc, hab]) h
    · rw [dif_neg hg] at h
      simp only [Option.some_inj, Prod.mk.injEq] at h
      obtain ⟨rfl, rfl⟩ := h
      exact hacc

/-- C5 (amended): whenever synchronization returns a pair of sequences at
all, the two outputs have identical timestamp lists — hence equal lengths
and pairwise identical timestamps — and identical bound inclusivity flags;
and when the bounding periods do not overlap, no result is returned.  (The
original claim is refuted by `C5_counterexample`: with crossings requested
the function can instead abort, because a truncated crossing timestamp can
collide with the previous instant and `tsequence_make` then raises a
`ValidationError`.) -/
theorem C5_synchronize_alignment (seq1 seq2 : TSequence)
    (crossings : Bool) :
    (∀ s1 s2, synchronize_tsequence_tsequence seq1 seq2 crossings =
        Except.ok (some (s1, s2)) →
      s1.insts.map TInstant.t = s2.insts.map TInstant.t ∧
        s1.insts.length = s2.insts.length ∧
        s1.lower_inc = s2.lower_inc ∧ s1.upper_inc = s2.upper_inc) ∧
    (period_intersection seq1.period seq2.period = none →
      synchronize_tsequence_tsequence seq1 seq2 crossings =
        Except.ok none) := by
  constructor
  · intro s1 s2 h
    rw [synchronize_tsequence_tsequence] at h
    split at h
    · exact absurd h (by simp)
    · rename_i inter hper
      split_ifs at h with hinst
      · split at h
        all_goals try exact Except.noConfusion h
        rename_i i1 i2 hat1 hat2
        split at h
        all_goals try exact Except.noConfusion h
        rename_i s1' s2' hmk1 hmk2
        simp only [Except.ok.injEq, Option.some_inj, Prod.mk.injEq] at h
        obtain ⟨rfl, rfl⟩ := h
        obtain rfl := make_some_shape _ _ _ _ _ hmk1
        obtain rfl := make_some_shape _ _ _ _ _ hmk2
        refine ⟨?_, rfl, rfl, rfl⟩
        simp [at_timestamp_t _ _ _ hat1, at_timestamp_t _ _ _ hat2]
      · split at h
        all_goals try exact Except.noConfusion h
        rename_i i0 j0 a0 b0 heq0
        split at h
        all_goals try exact Except.noConfusion h
        rename_i l1 l2 heqL
        split at h
        all_goals try exact Except.noConfusion h
        rename_i s1' s2' hmk1 hmk2
        simp only [Except.ok.injEq, Option.some_inj, Prod.mk.injEq] at h
        obtain ⟨rfl, rfl⟩ := h
        obtain rfl := make_some_shape _ _ _ _ _ hmk1
        obtain rfl := make_some_shape _ _ _ _ _ hmk2
        have hmap : l1.map TInstant.t = l2.map TInstant.t :=
          syncLoop_map_t seq1 seq2 crossings inter.upper
            (((seq1.insts.length : ℤ) - i0 +
              ((seq2.insts.length : ℤ) - j0)).toNat)
            i0 j0 a0 b0 [] [] l1 l2 le_rfl rfl heqL
        have hfix : (stepFixup inter.upper_inc seq1.linear l1).map
            TInstant.t =
            (stepFixup inter.upper_inc seq2.linear l2).map TInstant.t := by
          rw [stepFixup_map_t, stepFixup_map_t]
          exact hmap
        refine ⟨hfix, ?_, rfl, rfl⟩
        have hlen := congrArg List.length hfix
        simpa using hlen
  · intro hper
    rw [synchronize_tsequence_tsequence, hper]

/-- C5 (counterexample): on two valid overlapping linear sequences,
synchronization with crossings aborts instead of returning two aligned
sequences: the crossing of the segments `0→10` and `10→0` over the
one-microsecond span `[0,1]` truncates to timestamp `0`, the crossing pair
collides with the pair already emitted at `0`, and `tsequence_make` raises a
`ValidationError` on the non-increasing timestamps. -/
theorem C5_counterexample :
    (⟨[⟨0, 0⟩, ⟨10, 1⟩], true, true, true⟩ : TSequence).Valid ∧
      (⟨[⟨10, 0⟩, ⟨0, 1⟩], true, true, true⟩ : TSequence).Valid ∧
      period_intersection
          (⟨[⟨0, 0⟩, ⟨10, 1⟩], true, true, true⟩ : TSequence).period
          (⟨[⟨10, 0⟩, ⟨0, 1⟩], true, true, true⟩ : TSequence).period ≠
        none ∧
      synchronize_tsequence_tsequence
          ⟨[⟨0, 0⟩, ⟨10, 1⟩], true, true, true⟩
          ⟨[⟨10, 0⟩, ⟨0, 1⟩], true, true, true⟩ true =
        Except.error () := by
  refine ⟨by decide, by decide, by decide, ?_⟩
  have hx : tsequence_intersection ⟨0, 0⟩ ⟨10, 1⟩ true ⟨10, 0⟩ ⟨0, 1⟩ true =
      some (0, 10, 0) := by
    norm_num [tsequence_intersection, tnumberseq_intersection,
      numSegFraction, EPSILON, ctrunc, tsequence_value_at_timestamp1,
      abs_of_nonneg, Int.floor_eq_zero_iff, Set.mem_Ico]
  have hloop : syncLoop ⟨[⟨0, 0⟩, ⟨10, 1⟩], true, true, true⟩
      ⟨[⟨10, 0⟩, ⟨0, 1⟩], true, true, true⟩ true 1 0 0 ⟨0, 0⟩ ⟨10, 0⟩ [] []
      = some ([⟨0, 0⟩, ⟨0, 0⟩, ⟨10, 1⟩],
          [⟨10, 0⟩, ⟨10, 0⟩, ⟨0, 1⟩]) := by
    rw [syncLoop, dif_pos (by decide)]
    rw [show pairStep ⟨[⟨0, 0⟩, ⟨10, 1⟩], true, true, true⟩
        ⟨[⟨10, 0⟩, ⟨0, 1⟩], true, true, true⟩ ⟨0, 0⟩ ⟨10, 0⟩ =
        some (⟨0, 0⟩, ⟨10, 0⟩) from by decide]
    dsimp only []
    rw [if_neg (by decide)]
    dsimp only []
    rw [if_neg (by decide)]
    rw [show nexti 0 ⟨0, 0⟩ ⟨10, 0⟩ = 1 from by decide,
      show nextj 0 ⟨0, 0⟩ ⟨10, 0⟩ = 1 from by decide,
      show instN ⟨[⟨0, 0⟩, ⟨10, 1⟩], true, true, true⟩ 1 = ⟨10, 1⟩ from
        by decide,
      show instN ⟨[⟨10, 0⟩, ⟨0, 1⟩], true, true, true⟩ 1 = ⟨0, 1⟩ from
        by decide]
    rw [syncLoop, dif_pos (by decide)]
    rw [show pairStep ⟨[⟨0, 0⟩, ⟨10, 1⟩], true, true, true⟩
        ⟨[⟨10, 0⟩, ⟨0, 1⟩], true, true, true⟩ ⟨10, 1⟩ ⟨0, 1⟩ =
        some (⟨10, 1⟩, ⟨0, 1⟩) from by decide]
    dsimp only []
    rw [if_pos (by decide)]
    simp only [List.nil_append, List.getLastD_cons, getLastD_nil_eq]
    rw [hx]
    dsimp only []
    rw [if_pos (by decide)]
    rfl
  rw [synchronize_tsequence_tsequence,
    show period_intersection
        (⟨[⟨0, 0⟩, ⟨10, 1⟩], true, true, true⟩ : TSequence).period
        (⟨[⟨10, 0⟩, ⟨0, 1⟩], true, true, true⟩ : TSequence).period =
      some ⟨0, 1, true, true⟩ from by decide]
  dsimp only []
  rw [if_neg (by decide)]
  rw [show syncInit ⟨[⟨0, 0⟩, ⟨10, 1⟩], true, true, true⟩
      ⟨[⟨10, 0⟩, ⟨0, 1⟩], true, true, true⟩ 0 =
      some (0, 0, ⟨0, 0⟩, ⟨10, 0⟩) from by decide]
  dsimp only []
  rw [hloop]
  dsimp only []
  rw [show tsequence_make (stepFixup true true
      [⟨0, 0⟩, ⟨0, 0⟩, ⟨10, 1⟩]) true true true false = none from by decide]

/-- Witness for C5: synchronizing two concrete stepwise sequences sampled
at the same two timestamps. -/
theorem C5_synchronize_alignment_witness :
    ([⟨(1 : ℚ), (0 : ℤ)⟩, ⟨2, 10⟩] : List TInstant).map TInstant.t =
        ([⟨(5 : ℚ), (0 : ℤ)⟩, ⟨6, 10⟩] : List TInstant).map TInstant.t ∧
      ([⟨(1 : ℚ), (0 : ℤ)⟩, ⟨2, 10⟩] : List TInstant).length =
        ([⟨(5 : ℚ), (0 : ℤ)⟩, ⟨6, 10⟩] : List TInstant).length ∧
      true = true ∧ true = true :=
  (C5_synchronize_alignment ⟨[⟨1, 0⟩, ⟨2, 10⟩], true, true, false⟩
      ⟨[⟨5, 0⟩, ⟨6, 10⟩], true, true, false⟩ false).1
    ⟨[⟨1, 0⟩, ⟨2, 10⟩], true, true, false⟩
    ⟨[⟨5, 0⟩, ⟨6, 10⟩], true, true, false⟩
    (by
      have hloop : syncLoop ⟨[⟨1, 0⟩, ⟨2, 10⟩], true, true, false⟩
          ⟨[⟨5, 0⟩, ⟨6, 10⟩], true, true, false⟩ false 10 0 0 ⟨1, 0⟩
          ⟨5, 0⟩ [] [] =
          some ([⟨1, 0⟩, ⟨2, 10⟩], [⟨5, 0⟩, ⟨6, 10⟩]) := by
        rw [syncLoop, dif_pos (by decide)]
        rw [show pairStep ⟨[⟨1, 0⟩, ⟨2, 10⟩], true, true, false⟩
            ⟨[⟨5, 0⟩, ⟨6, 10⟩], true, true, false⟩ ⟨1, 0⟩ ⟨5, 0⟩ =
            some (⟨1, 0⟩, ⟨5, 0⟩) from by decide]
        dsimp only []
        rw [if_neg (by decide)]
        dsimp only []
        rw [if_neg (by decide)]
        rw [show nexti 0 ⟨1, 0⟩ ⟨5, 0⟩ = 1 from by decide,
          show nextj 0 ⟨1, 0⟩ ⟨5, 0⟩ = 1 from by decide,
          show instN ⟨[⟨1, 0⟩, ⟨2, 10⟩], true, true, false⟩ 1 = ⟨2, 10⟩
            from by decide,
          show instN ⟨[⟨5, 0⟩, ⟨6, 10⟩], true, true, false⟩ 1 = ⟨6, 10⟩
            from by decide]
        rw [syncLoop, dif_pos (by decide)]
        rw [show pairStep ⟨[⟨1, 0⟩, ⟨2, 10⟩], true, true, false⟩
            ⟨[⟨5, 0⟩, ⟨6, 10⟩], true, true, false⟩ ⟨2, 10⟩ ⟨6, 10⟩ =
            some (⟨2, 10⟩, ⟨6, 10⟩) from by decide]
        dsimp only []
        rw [if_neg (by decide)]
        dsimp only []
        rw [if_pos (by decide)]
        rfl
      rw [synchronize_tsequence_tsequence,
        show period_intersection
            (⟨[⟨1, 0⟩, ⟨2, 10⟩], true, true, false⟩ : TSequence).period
            (⟨[⟨5, 0⟩, ⟨6, 10⟩], true, true, false⟩ : TSequence).period =
          some ⟨0, 10, true, true⟩ from by decide]
      dsimp only []
      rw [if_neg (by decide)]
      rw [show syncInit ⟨[⟨1, 0⟩, ⟨2, 10⟩], true, true, false⟩
          ⟨[⟨5, 0⟩, ⟨6, 10⟩], true, true, false⟩ 0 =
          some (0, 0, ⟨1, 0⟩, ⟨5, 0⟩) from by decide]
      dsimp only []
      rw [hloop]
      dsimp only []
      rw [show tsequence_make (stepFixup true false [⟨1, 0⟩, ⟨2, 10⟩])
          true true false false =
          some ⟨[⟨1, 0⟩, ⟨2, 10⟩], true, true, false⟩ from by decide,
        show tsequence_make (stepFixup true false [⟨5, 0⟩, ⟨6, 10⟩])
          true true false false =
          some ⟨[⟨5, 0⟩, ⟨6, 10⟩], true, true, false⟩ from by decide])
